import Mathlib

/-!
Verification of the core of a minimal git implementation (codecrafters-git-rust).

The development shallowly embeds the Rust sources:
  src/hash.rs                 - 20-byte SHA-1 identifiers
  src/git_object/{mod,blob,tree,commit}.rs - the object model, serialization, parsing
  src/git_protocol/delta.rs   - delta decoding and application
  src/git_protocol/pack_file.rs - pack decoding and delta expansion
  src/git_protocol/pkt_line.rs  - the pkt-line codec

Rust byte buffers (Vec<u8>, &[u8], Bytes) are modelled as List Nat, with every
element intended to be < 256 (all concrete inputs respect this).  Rust String
values are modelled by their UTF-8 byte lists.  Functions that can panic
(unwrap / expect / slice out of range) are modelled as Option-returning
functions, with none standing for the panic.
-/


/-- The byte list of an ASCII string literal (used for the fixed ASCII pieces
of the source: header keywords, separators). -/
def strB (s : String) : List Nat :=
  s.data.map Char.toNat

/-- Decimal ASCII rendering of a natural number (fuel-driven;
fuel above n always suffices). -/
def decBytesCore : Nat → Nat → List Nat
  | 0, _ => []
  | f + 1, n => if n < 10 then [48 + n] else decBytesCore f (n / 10) ++ [48 + n % 10]

/-- Decimal ASCII rendering of a natural number, as produced by Rust
format!("{n}") for an unsigned integer. -/
def decBytes (n : Nat) : List Nat :=
  decBytesCore (n + 1) n

/-- All bytes in a list differ from b. -/
def noByte (b : Nat) (l : List Nat) : Bool :=
  l.all (· ≠ b)

/-- Parse a run of decimal ASCII digits as a natural number; none unless the
input is nonempty and all digits (the behavior of str::parse::<usize> on
digit-only strings; other accepted forms such as a leading plus sign do not
arise in this development's inputs). -/
def parseDecCore : List Nat → Nat → Option Nat
  | [], acc => some acc
  | b :: r, acc =>
    if 48 ≤ b ∧ b ≤ 57 then parseDecCore r (acc * 10 + (b - 48)) else none

def parseDec (l : List Nat) : Option Nat :=
  if l.isEmpty then none else parseDecCore l 0

namespace SHA1

/-- Rotate a 32-bit word left by k bits. -/
def rotl (n k : Nat) : Nat :=
  ((n <<< k) % 2 ^ 32) ||| (n >>> (32 - k))

/-- Bitwise complement of a 32-bit word. -/
def compl32 (n : Nat) : Nat :=
  n ^^^ (2 ^ 32 - 1)

/-- Big-endian 32-bit words of a list of bytes. -/
def beWords : List Nat → List Nat
  | b0 :: b1 :: b2 :: b3 :: rest =>
    (((b0 * 256 + b1) * 256 + b2) * 256 + b3) :: beWords rest
  | _ => []

/-- Message-schedule expansion: extend the 16 block words to 80. -/
def expandWords : Nat → List Nat → List Nat
  | 0, acc => acc
  | n + 1, acc =>
    let w := rotl ((acc.getD (acc.length - 3) 0) ^^^ (acc.getD (acc.length - 8) 0) ^^^
      (acc.getD (acc.length - 14) 0) ^^^ (acc.getD (acc.length - 16) 0)) 1
    expandWords n (acc ++ [w])

/-- The round function and constant for round i. -/
def roundFK (i b c d : Nat) : Nat × Nat :=
  if i < 20 then ((b &&& c) ||| (compl32 b &&& d), 0x5A827999)
  else if i < 40 then (b ^^^ c ^^^ d, 0x6ED9EBA1)
  else if i < 60 then ((b &&& c) ||| (b &&& d) ||| (c &&& d), 0x8F1BBCDC)
  else (b ^^^ c ^^^ d, 0xCA62C1D6)

/-- One compression round. -/
def roundStep (st : Nat × Nat × Nat × Nat × Nat) (iw : Nat × Nat) :
    Nat × Nat × Nat × Nat × Nat :=
  let (a, b, c, d, e) := st
  let (i, w) := iw
  let (f, k) := roundFK i b c d
  let t := (rotl a 5 + f + e + k + w) % 2 ^ 32
  (t, a, rotl b 30, c, d)

/-- Compress one 64-byte block into the running state. -/
def compress (h : Nat × Nat × Nat × Nat × Nat) (block : List Nat) :
    Nat × Nat × Nat × Nat × Nat :=
  let ws := expandWords 64 (beWords block)
  let (a, b, c, d, e) := ws.enum.foldl roundStep h
  let (h0, h1, h2, h3, h4) := h
  ((h0 + a) % 2 ^ 32, (h1 + b) % 2 ^ 32, (h2 + c) % 2 ^ 32,
    (h3 + d) % 2 ^ 32, (h4 + e) % 2 ^ 32)

/-- Split into 64-byte blocks (fuel-driven; fuel at least the list length). -/
def chunk64 : Nat → List Nat → List (List Nat)
  | 0, _ => []
  | _, [] => []
  | f + 1, l => l.take 64 :: chunk64 f (l.drop 64)

/-- Big-endian bytes of a 32-bit word. -/
def beBytes4 (n : Nat) : List Nat :=
  [n / 2 ^ 24 % 256, n / 2 ^ 16 % 256, n / 2 ^ 8 % 256, n % 256]

/-- Big-endian bytes of a 64-bit length. -/
def beBytes8 (n : Nat) : List Nat :=
  [n / 2 ^ 56 % 256, n / 2 ^ 48 % 256, n / 2 ^ 40 % 256, n / 2 ^ 32 % 256,
    n / 2 ^ 24 % 256, n / 2 ^ 16 % 256, n / 2 ^ 8 % 256, n % 256]

/-- SHA-1 padding of a message. -/
def pad (msg : List Nat) : List Nat :=
  msg ++ 0x80 :: List.replicate ((119 - msg.length % 64) % 64) 0 ++
    beBytes8 (8 * msg.length)

/-- The SHA-1 digest of a byte list, as 20 bytes. -/
def digest (msg : List Nat) : List Nat :=
  let padded := pad msg
  let (h0, h1, h2, h3, h4) :=
    (chunk64 padded.length padded).foldl compress
      (0x67452301, 0xEFCDAB89, 0x98BADCFE, 0x10325476, 0xC3D2E1F0)
  beBytes4 h0 ++ beBytes4 h1 ++ beBytes4 h2 ++ beBytes4 h3 ++ beBytes4 h4

end SHA1

/-! ## The object model (src/git_object) -/

/-- Tree entry modes (src/git_object/tree.rs, enum Mode). -/
inductive Mode
  | file
  | directory
  | symlink
  | executable
deriving DecidableEq, Repr

/-- The numeric value of a mode (the enum discriminants MODE_FILE etc.). -/
def Mode.num : Mode → Nat
  | .file => 100644
  | .directory => 40000
  | .symlink => 120000
  | .executable => 100755

/-- A tree entry (TreeNode).  The name field holds the UTF-8 bytes of the
Rust String; hash holds the 20 hash bytes. -/
structure TreeNode where
  mode : Mode
  name : List Nat
  hash : List Nat
deriving DecidableEq, Repr

/-- TreeNode::serialize: format!("{mode} {name}\0") followed by the hash. -/
def TreeNode.serialize (t : TreeNode) : List Nat :=
  decBytes t.mode.num ++ [32] ++ t.name ++ [0] ++ t.hash

/-- TreeNode::len. -/
def TreeNode.len (t : TreeNode) : Nat :=
  t.serialize.length

/-- A commit signature (src/git_object/commit.rs, struct User). -/
structure User where
  name : List Nat
  email : List Nat
  timestamp : Nat
  timezone : List Nat
deriving DecidableEq, Repr

/-- The Display form of a User: "<name> <<email>> <ts> <tz>". -/
def User.display (u : User) : List Nat :=
  u.name ++ [32, 60] ++ u.email ++ [62, 32] ++ decBytes u.timestamp ++ [32] ++ u.timezone

/-- A commit (struct Commit). -/
structure Commit where
  tree : List Nat
  parents : List (List Nat)
  comment : List Nat
  author : User
  committer : User
deriving DecidableEq, Repr

/-- Commit::serialize. -/
def Commit.serialize (c : Commit) : List Nat :=
  strB "tree " ++ c.tree ++ [10] ++
  (c.parents.map (fun p => strB "parent " ++ p ++ [10])).flatten ++
  strB "author " ++ c.author.display ++ [10] ++
  strB "committer " ++ c.committer.display ++ [10] ++
  [10] ++ c.comment ++ [10]

/-- Commit::len. -/
def Commit.len (c : Commit) : Nat :=
  c.serialize.length

/-- enum GitObject (src/git_object/mod.rs). -/
inductive GitObject
  | blob (bytes : List Nat)
  | tree (nodes : List TreeNode)
  | commit (c : Commit)
deriving DecidableEq, Repr

/-- GitObject::serialize: the canonical payload only. -/
def GitObject.serialize : GitObject → List Nat
  | .blob b => b
  | .tree ts => (ts.map TreeNode.serialize).flatten
  | .commit c => c.serialize

/-- GitObject::size. -/
def GitObject.size : GitObject → Nat
  | .blob b => b.length
  | .tree ts => (ts.map TreeNode.len).sum
  | .commit c => c.len

/-- GitObject::header: format!("<kind> {size}\0"). -/
def GitObject.header (o : GitObject) : List Nat :=
  (match o with
    | .blob _ => strB "blob "
    | .tree _ => strB "tree "
    | .commit _ => strB "commit ") ++ decBytes o.size ++ [0]

/-- The kind keyword of an object, used to state the header shape. -/
def GitObject.kindBytes : GitObject → List Nat
  | .blob _ => strB "blob"
  | .tree _ => strB "tree"
  | .commit _ => strB "commit"

/-- An incremental SHA-1 context is modelled by the byte stream fed to it so
far; update appends, finalize digests the accumulated stream. -/
abbrev Hasher := List Nat

def Hasher.update (h : Hasher) (bytes : List Nat) : Hasher :=
  h ++ bytes

def Hasher.finalize (h : Hasher) : List Nat :=
  SHA1.digest h

/-- GitObject::hash: feed the header, then the per-variant payload chunks
(the blob bytes / each tree entry's serialization / the commit
serialization), and finalize. -/
def GitObject.hash (o : GitObject) : List Nat :=
  let h : Hasher := Hasher.update [] o.header
  let h : Hasher :=
    match o with
    | .blob b => Hasher.update h b
    | .tree ts => ts.foldl (fun acc t => Hasher.update acc t.serialize) h
    | .commit c => Hasher.update h c.serialize
  Hasher.finalize h

/-! ## Parsing (GitObject::new and friends) -/

/-- position(byte): index of the first occurrence of a byte. -/
def bytePosition (b : Nat) (l : List Nat) : Option Nat :=
  l.findIdx? (· = b)

/-- zero_position. -/
def zeroPosition (l : List Nat) : Option Nat :=
  bytePosition 0 l

/-- space_position. -/
def spacePosition (l : List Nat) : Option Nat :=
  bytePosition 32 l

/-- Rust slice indexing data[a..b]; none models the out-of-range panic. -/
def sliceExact (l : List Nat) (a b : Nat) : Option (List Nat) :=
  if a ≤ b ∧ b ≤ l.length then some ((l.drop a).take (b - a)) else none

/-- Rust slice indexing data[a..]; none models the out-of-range panic. -/
def dropExact (a : Nat) (l : List Nat) : Option (List Nat) :=
  if a ≤ l.length then some (l.drop a) else none

/-- TreeNode::new: split a record buffer at its first space and first NUL
into mode, name and hash; none models the panics (missing space or NUL,
unknown mode, hash not 20 bytes). -/
def TreeNode.new (buf : List Nat) : Option TreeNode := do
  let spPos ← spacePosition buf
  let zeroPos ← zeroPosition buf
  let modeNum ← parseDec (buf.take spPos)
  let mode ←
    if modeNum = 100644 then some Mode.file
    else if modeNum = 40000 then some Mode.directory
    else if modeNum = 120000 then some Mode.symlink
    else if modeNum = 100755 then some Mode.executable
    else none
  let name ← sliceExact buf (spPos + 1) zeroPos
  let hash := buf.drop (zeroPos + 1)
  if hash.length = 20 then some ⟨mode, name, hash⟩ else none

/-- The TreeRecords iterator: repeatedly locate the next NUL, read that many
bytes plus the 20 hash bytes, and parse a TreeNode.  Iteration stops (without
error) when no NUL remains or too few bytes are left; none models a panic
inside TreeNode::new.  Fuel-driven; each step consumes at least 21 bytes. -/
def treeRecordsGo : Nat → List Nat → Option (List TreeNode)
  | 0, _ => some []
  | fuel + 1, rest =>
    match zeroPosition rest with
    | none => some []
    | some zeroPos =>
      let treeSize := zeroPos + 20 + 1
      if rest.length < treeSize then some []
      else do
        let node ← TreeNode.new (rest.take treeSize)
        let more ← treeRecordsGo fuel (rest.drop treeSize)
        some (node :: more)

/-- TreeRecords::new(bytes).collect(). -/
def treeRecords (bytes : List Nat) : Option (List TreeNode) :=
  treeRecordsGo (bytes.length + 1) bytes

/-- The regex class \d read at byte level.  The regex crate's \d is the
Unicode category Nd; on ASCII text (the domain to which the round-trip
well-formedness predicates below restrict the claim) it is exactly the
bytes 48-57. -/
def isDigitB (b : Nat) : Bool :=
  decide (48 ≤ b ∧ b ≤ 57)

/-- Whether a byte run is a valid single-line capture for the regex dot:
nonempty with no newline (the byte-level reading of .+, exact on ASCII
text). -/
def dotPlus (l : List Nat) : Bool :=
  !l.isEmpty && l.all (· ≠ 10)

/-- After the literal "> " of the User regex: a greedy nonempty digit run,
a space, then a greedy nonempty run of non-newline bytes (the timezone). -/
def userTail (t : List Nat) : Option (Nat × List Nat) := do
  let d := t.takeWhile isDigitB
  if d.isEmpty then none
  else
    match t.drop d.length with
    | 32 :: rest =>
      let tz := rest.takeWhile (· ≠ 10)
      if tz.isEmpty then none
      else do
        let ts ← parseDec d
        some (ts, tz)
    | _ => none

/-- Greedy scan for the "> " closing the email capture: j descending, so the
longest email wins, as with the backtracking of a greedy dot-plus. -/
def emailLoop (m : List Nat) : Nat → Option (List Nat × Nat × List Nat)
  | 0 => none
  | j + 1 =>
    match
      (if m.getD j 0 = 62 ∧ m.getD (j + 1) 0 = 32 ∧ j + 1 < m.length ∧
          dotPlus (m.take j) then
        (userTail (m.drop (j + 2))).map fun (ts, tz) => (m.take j, ts, tz)
      else none) with
    | some r => some r
    | none => emailLoop m j

/-- Greedy scan for the " <" closing the name capture: i descending, so the
longest name wins. -/
def nameLoop (s : List Nat) : Nat → Option User
  | 0 => none
  | i + 1 =>
    match
      (if s.getD i 0 = 32 ∧ s.getD (i + 1) 0 = 60 ∧ i + 1 < s.length ∧
          dotPlus (s.take i) then
        (emailLoop (s.drop (i + 2)) (s.drop (i + 2)).length).map
          fun (email, ts, tz) => ⟨s.take i, email, ts, tz⟩
      else none) with
    | some u => some u
    | none => nameLoop s i

/-- Leftmost-first match of the User regex
"(?<name>.+) <(?<email>.+)> (?<timestamp>\d+) (?<timezone>.+)": try each
start position from the left; at each, captures are greedy. -/
def userCaptures : Nat → List Nat → Option User
  | 0, _ => none
  | fuel + 1, s =>
    match nameLoop s s.length with
    | some u => some u
    | none => userCaptures fuel (s.drop 1)

/-- User::from(&[u8]): regex captures (none models the unwrap panic). -/
def userFromBytes (s : List Nat) : Option User :=
  userCaptures (s.length + 1) s

/-- Rust slice::split on a byte: yields the (possibly empty) pieces between
occurrences; always at least one piece. -/
def splitOnByte (b : Nat) : List Nat → List (List Nat)
  | [] => [[]]
  | x :: r =>
    if x = b then [] :: splitOnByte b r
    else
      match splitOnByte b r with
      | p :: ps => (x :: p) :: ps
      | [] => [[x]]

/-- The line loop of Commit::from_bytes after the tree line: collect parent
lines, then read author, committer, the blank line and the first message
line.  none models the unwrap panics (missing lines, slice out of range,
regex mismatch). -/
def commitLinesLoop (tree : List Nat) (parents : List (List Nat)) :
    List (List Nat) → Option Commit
  | [] => none
  | line :: rest =>
    if (strB "parent").isPrefixOf line then do
      let p ← dropExact 7 line
      commitLinesLoop tree (parents ++ [p]) rest
    else do
      let abytes ← dropExact 7 line
      let author ← userFromBytes abytes
      match rest with
      | [] => none
      | cline :: rest2 => do
        let cbytes ← dropExact 10 cline
        let committer ← userFromBytes cbytes
        match rest2 with
        | [] => none
        | _blank :: rest3 =>
          match rest3 with
          | [] => none
          | comment :: _ => some ⟨tree, parents, comment, author, committer⟩

/-- Commit::from_bytes. -/
def commitFromBytes (bytes : List Nat) : Option Commit :=
  match splitOnByte 10 bytes with
  | [] => none
  | line0 :: rest => do
    let tree ← dropExact 5 line0
    commitLinesLoop tree [] rest

/-- GitObject::new: dispatch on the leading keyword, find the header NUL,
and parse the remainder; none models errors and panics (including the
unimplemented!() arm for unknown keywords). -/
def GitObject.new (data : List Nat) : Option GitObject :=
  if (strB "blob").isPrefixOf data then do
    let zeroPos ← zeroPosition data
    let sizeBytes ← sliceExact data 5 zeroPos
    let size ← parseDec sizeBytes
    let bytes ← sliceExact data (zeroPos + 1) (zeroPos + 1 + size)
    some (.blob bytes)
  else if (strB "tree").isPrefixOf data then do
    let zeroPos ← zeroPosition data
    let ts ← treeRecords (data.drop (zeroPos + 1))
    some (.tree ts)
  else if (strB "commit").isPrefixOf data then do
    let zeroPos ← zeroPosition data
    let c ← commitFromBytes (data.drop (zeroPos + 1))
    some (.commit c)
  else none

/-! ## Deltas (src/git_protocol/delta.rs) -/

/-- read_one: none models the read_exact panic on an exhausted reader. -/
def readOne : List Nat → Option (Nat × List Nat)
  | [] => none
  | b :: r => some (b, r)

/-- msb_is_1. -/
def msbIs1 (b : Nat) : Bool :=
  b &&& 128 == 128

/-- The continuation loop of get_length: while the msb of the current byte is
set, read another byte and add its low 7 bits shifted by 7 (the shift is not
incremented between iterations, exactly as in the source). -/
def getLengthLoop (len byte : Nat) : List Nat → Option (Nat × List Nat)
  | [] => if msbIs1 byte then none else some (len, [])
  | b :: r2 =>
    if msbIs1 byte then getLengthLoop (len + (b &&& 127) <<< 7) b r2
    else some (len, b :: r2)

/-- get_length (delta.rs): the base-size / target-size decoder. -/
def getLength (r : List Nat) : Option (Nat × List Nat) := do
  let (byte, r) ← readOne r
  getLengthLoop (byte &&& 127) byte r

/-- enum Instruction. -/
inductive Instruction
  | copy (offset size : Nat)
  | insert (bytes : List Nat)
deriving DecidableEq, Repr

/-- read_size(mask, shift): read one byte shifted if the mask bit of the
leading byte is set, else contribute zero. -/
def readSize (mask shift byte : Nat) (r : List Nat) : Option (Nat × List Nat) :=
  if byte &&& mask == mask then do
    let (v, r2) ← readOne r
    some (v <<< shift, r2)
  else some (0, r)

/-- get_delta_offset: offset1 + offset2 + offset3 + offset4. -/
def getDeltaOffset (byte : Nat) (r : List Nat) : Option (Nat × List Nat) := do
  let (o1, r) ← readSize 0x01 0 byte r
  let (o2, r) ← readSize 0x02 8 byte r
  let (o3, r) ← readSize 0x04 16 byte r
  let (o4, r) ← readSize 0x08 24 byte r
  some (o1 + o2 + o3 + o4, r)

/-- get_delta_size: size1 + size2 + size3. -/
def getDeltaSize (byte : Nat) (r : List Nat) : Option (Nat × List Nat) := do
  let (s1, r) ← readSize 0x10 0 byte r
  let (s2, r) ← readSize 0x20 8 byte r
  let (s3, r) ← readSize 0x40 16 byte r
  some (s1 + s2 + s3, r)

/-- Instruction::new: copy when the msb of the leading byte is set, else an
insert of the low-7-bit count of raw bytes. -/
def instructionNew (byte : Nat) (r : List Nat) : Option (Instruction × List Nat) :=
  if msbIs1 byte then do
    let (offset, r) ← getDeltaOffset byte r
    let (size, r) ← getDeltaSize byte r
    some (.copy offset size, r)
  else
    let len := byte &&& 127
    if len ≤ r.length then some (.insert (r.take len), r.drop len) else none

/-- struct Delta. -/
structure Delta where
  base_size : Nat
  target_size : Nat
  instructions : List Instruction
deriving DecidableEq, Repr

/-- The instruction loop of Delta::new: read a leading byte and an
instruction until EOF (fuel-driven; each step consumes at least one byte). -/
def deltaInstrsGo : Nat → List Nat → Option (List Instruction)
  | 0, _ => some []
  | _, [] => some []
  | f + 1, byte :: r => do
    let (inst, r2) ← instructionNew byte r
    let more ← deltaInstrsGo f r2
    some (inst :: more)

/-- Delta::new. -/
def deltaNew (r : List Nat) : Option Delta := do
  let (baseSize, r) ← getLength r
  let (targetSize, r) ← getLength r
  let instrs ← deltaInstrsGo (r.length + 1) r
  some ⟨baseSize, targetSize, instrs⟩

/-- The instruction interpreter of Delta::restore; none models the slice
panic buf[offset..offset + size] when the range exceeds the base. -/
def restoreGo (buf : List Nat) : List Instruction → Option (List Nat)
  | [] => some []
  | .copy offset size :: rest =>
    if offset + size ≤ buf.length then
      (restoreGo buf rest).map (((buf.drop offset).take size) ++ ·)
    else none
  | .insert bytes :: rest => (restoreGo buf rest).map (bytes ++ ·)

/-- Delta::restore. -/
def Delta.restore (d : Delta) (buf : List Nat) : Option (List Nat) :=
  restoreGo buf d.instructions

/-- GitObject::restore: reframe with this object's header, apply the delta to
this object's payload, and re-parse. -/
def GitObject.restore (o : GitObject) (d : Delta) : Option GitObject := do
  let restored ← d.restore o.serialize
  GitObject.new (o.header ++ restored)

/-! ## Pack files (src/git_protocol/pack_file.rs) -/

/-- A zlib inflate oracle: given the bytes at the cursor and the expected
decompressed length, produce the decompressed bytes and the number of
compressed bytes consumed (decoder.total_in()); none models a corrupt
stream.  flate2 is an external crate, so decompression itself is a
parameter of the model. -/
abbrev InflateFn := List Nat → Nat → Option (List Nat × Nat)

/-- Big-endian u32 from four bytes. -/
def u32BE (a b c d : Nat) : Nat :=
  ((a * 256 + b) * 256 + c) * 256 + d

/-- struct PackFile: the object count and the cursor contents (the input
past the 12-byte header, with consumed bytes dropped). -/
structure PackFile where
  numObjects : Nat
  rest : List Nat
deriving DecidableEq, Repr

/-- PackFile::new: bytes[8..12] big-endian is the object count, the cursor
holds bytes[12..]; none models the try_into panic on a short input. -/
def PackFile.new (bytes : List Nat) : Option PackFile :=
  if 12 ≤ bytes.length then
    some ⟨u32BE (bytes.getD 8 0) (bytes.getD 9 0) (bytes.getD 10 0) (bytes.getD 11 0),
      bytes.drop 12⟩
  else none

/-- enum ObjectType. -/
inductive ObjectType
  | commit
  | tree
  | blob
  | tag
  | ofsDelta
  | refDelta
  | unknown
deriving DecidableEq, Repr

/-- ObjectType::new: bits 6..4 of the first header byte. -/
def ObjectType.new (byte : Nat) : ObjectType :=
  match (byte &&& 0x70) >>> 4 with
  | 1 => .commit
  | 2 => .tree
  | 3 => .blob
  | 4 => .tag
  | 6 => .ofsDelta
  | 7 => .refDelta
  | _ => .unknown

/-- The size continuation loop of read_object_header: low 7 bits at shifts
4, 11, 18, ... while the msb of the current byte is set. -/
def readObjectHeaderLoop (len shift byte : Nat) : List Nat → Option (Nat × List Nat)
  | [] => if msbIs1 byte then none else some (len, [])
  | b :: r2 =>
    if msbIs1 byte then readObjectHeaderLoop (len + (b &&& 127) <<< shift) (shift + 7) b r2
    else some (len, b :: r2)

/-- PackFile::read_object_header: some none when num_objects is zero (the
iterator is exhausted); the outer none models a read_one panic. -/
def PackFile.readObjectHeader (pf : PackFile) :
    Option (Option ((Nat × ObjectType) × List Nat)) :=
  if pf.numObjects = 0 then some none
  else
    match pf.rest with
    | [] => none
    | byte :: r =>
      (readObjectHeaderLoop (byte &&& 0xF) 4 byte r).map
        fun (l, r2) => some ((l, ObjectType.new byte), r2)

/-- enum PackFileObject. -/
inductive PackFileObject
  | gitObject (o : GitObject)
  | refDelta (basename : List Nat) (delta : Delta)
deriving DecidableEq, Repr

/-- PackFileObject::undeltified; none models the panics (malformed commit,
and the non-object types' panic! arm). -/
def PackFileObject.undeltified (t : ObjectType) (buf : List Nat) : Option PackFileObject :=
  match t with
  | .commit => (commitFromBytes buf).map fun c => .gitObject (.commit c)
  | .tree => (treeRecords buf).map fun ts => .gitObject (.tree ts)
  | .blob => some (.gitObject (.blob buf))
  | _ => none

/-- The outcome of one Iterator::next call on a PackFile. -/
inductive PackStep
  | yield (obj : PackFileObject) (pf : PackFile)
  | done
  | abort
deriving DecidableEq, Repr

/-- Iterator::next for PackFile: done models returning None (for an
exhausted count, and for the tag / ofs-delta / unknown arm, which prints to
stderr and returns None); abort models a panic. -/
def PackFile.next (inflate : InflateFn) (pf : PackFile) : PackStep :=
  match pf.readObjectHeader with
  | none => .abort
  | some none => .done
  | some (some ((len, objType), r)) =>
    match objType with
    | .commit | .tree | .blob =>
      match inflate r len with
      | none => .abort
      | some (buf, consumed) =>
        if buf.length < len then .abort
        else
          match PackFileObject.undeltified objType (buf.take len) with
          | none => .abort
          | some obj => .yield obj ⟨pf.numObjects - 1, r.drop consumed⟩
    | .refDelta =>
      if 20 ≤ r.length then
        let basename := r.take 20
        let r2 := r.drop 20
        match inflate r2 len with
        | none => .abort
        | some (buf, consumed) =>
          if buf.length < len then .abort
          else
            match deltaNew (buf.take len) with
            | none => .abort
            | some delta =>
              .yield (.refDelta basename delta) ⟨pf.numObjects - 1, r2.drop consumed⟩
      else .abort
    | _ => .done

/-- Driving the iterator to completion (collect); fuel-driven, one unit per
yielded object. -/
def PackFile.collectGo (inflate : InflateFn) : Nat → PackFile → Option (List PackFileObject)
  | 0, _ => none
  | f + 1, pf =>
    match pf.next inflate with
    | .done => some []
    | .abort => none
    | .yield obj pf2 => (PackFile.collectGo inflate f pf2).map (obj :: ·)

def PackFile.collectAll (inflate : InflateFn) (pf : PackFile) : Option (List PackFileObject) :=
  PackFile.collectGo inflate (pf.numObjects + 1) pf

/-- group_objects. -/
def groupObjects (objects : List PackFileObject) :
    List GitObject × List (List Nat × Delta) :=
  objects.foldl
    (fun acc o =>
      match o with
      | .gitObject g => (acc.1 ++ [g], acc.2)
      | .refDelta b d => (acc.1, acc.2 ++ [(b, d)]))
    ([], [])

/-- One round of the expand_deltas for-loop: resolve the pending pairs left
to right against the growing object list; unresolved pairs are carried. -/
def expandRound (gs : List GitObject) : List (List Nat × Delta) →
    Option (List GitObject × List (List Nat × Delta))
  | [] => some (gs, [])
  | (h, d) :: rest =>
    match gs.find? (fun o => o.hash == h) with
    | some obj =>
      match obj.restore d with
      | none => none
      | some restored => expandRound (gs ++ [restored]) rest
    | none => (expandRound gs rest).map fun (gs2, np) => (gs2, (h, d) :: np)

/-- The while-loop of expand_deltas.  none models the "Not Found base object
for delta" panic when a full round makes no progress; the loop exits
successfully when at most one pending pair remains. -/
def expandLoop : Nat → List GitObject → List (List Nat × Delta) → Option (List GitObject)
  | 0, _, _ => none
  | f + 1, gs, pairs =>
    match expandRound gs pairs with
    | none => none
    | some (gs2, nextPairs) =>
      if nextPairs.length = pairs.length then none
      else if nextPairs.length ≤ 1 then some gs2
      else expandLoop f gs2 nextPairs

/-- expand_deltas. -/
def expandDeltas (objects : List PackFileObject) : Option (List GitObject) :=
  let (gs, ds) := groupObjects objects
  if ds.isEmpty then some gs
  else expandLoop (ds.length + 1) gs ds

/-- PackFile::get_objects. -/
def PackFile.getObjects (inflate : InflateFn) (bytes : List Nat) :
    Option (List GitObject) := do
  let pf ← PackFile.new bytes
  let objs ← pf.collectAll inflate
  expandDeltas objs

/-! ## Pkt-lines (src/git_protocol/pkt_line.rs) -/

/-- struct PktLine: Some(payload) or the None flush sentinel. -/
structure PktLine where
  payload : Option (List Nat)
deriving DecidableEq, Repr

def PktLine.new (bytes : List Nat) : PktLine :=
  ⟨some bytes⟩

def PktLine.flush : PktLine :=
  ⟨none⟩

/-- PktLine::size: payload length + 4, or 0 for flush. -/
def PktLine.size (l : PktLine) : Nat :=
  match l.payload with
  | some b => b.length + 4
  | none => 0

/-- PktLine::serialize: the payload bytes, or empty for flush. -/
def PktLine.serialize (l : PktLine) : List Nat :=
  match l.payload with
  | some b => b
  | none => []

/-- struct PktLines: a cursor over a byte buffer. -/
structure PktLines where
  buf : List Nat
  pos : Nat
deriving DecidableEq, Repr

def PktLines.new (b : List Nat) : PktLines :=
  ⟨b, 0⟩

/-- PktLines::remaining. -/
def PktLines.remaining (p : PktLines) : List Nat :=
  p.buf.drop p.pos

/-- PktLines::append: unread bytes plus the new input form a fresh decoder. -/
def PktLines.append (p : PktLines) (b : List Nat) : PktLines :=
  PktLines.new (p.remaining ++ b)

/-- The value of an ASCII hex digit (both cases), as accepted by
usize::from_str_radix(_, 16). -/
def hexDigitVal (b : Nat) : Option Nat :=
  if 48 ≤ b ∧ b ≤ 57 then some (b - 48)
  else if 97 ≤ b ∧ b ≤ 102 then some (b - 87)
  else if 65 ≤ b ∧ b ≤ 70 then some (b - 55)
  else none

def parseHexCore : List Nat → Nat → Option Nat
  | [], acc => some acc
  | b :: r, acc =>
    match hexDigitVal b with
    | some v => parseHexCore r (acc * 16 + v)
    | none => none

/-- line_size: usize::from_str_radix of the four length bytes (an optional
leading plus sign, then hex digits); none models the expect panic on a
malformed length. -/
def lineSize (l : List Nat) : Option Nat :=
  match l with
  | 43 :: rest => if rest.isEmpty then none else parseHexCore rest 0
  | _ => if l.isEmpty then none else parseHexCore l 0

/-- The outcome of one Iterator::next call on PktLines: stall models
returning None with the cursor back at the start of the incomplete frame. -/
inductive PktStep
  | stall (st : PktLines)
  | line (l : PktLine) (st : PktLines)
  | abort
deriving DecidableEq, Repr

/-- Iterator::next for PktLines.  The subtraction line_len - 4 wraps on a
64-bit usize, as in a release build, so a declared length below 4 behaves
as an impossibly long frame. -/
def PktLines.next (p : PktLines) : PktStep :=
  if p.remaining.length < 4 then .stall p
  else
    match lineSize (p.remaining.take 4) with
    | none => .abort
    | some n =>
      if n = 0 then .line PktLine.flush ⟨p.buf, p.pos + 4⟩
      else if (p.remaining.drop 4).length < (n + (2 ^ 64 - 4)) % 2 ^ 64 then .stall p
      else .line (PktLine.new ((p.remaining.drop 4).take ((n + (2 ^ 64 - 4)) % 2 ^ 64)))
        ⟨p.buf, p.pos + 4 + (n + (2 ^ 64 - 4)) % 2 ^ 64⟩

/-- Drain the iterator until it stalls (fuel-driven; every emitted line
consumes at least four bytes). -/
def PktLines.drainGo : Nat → PktLines → Option (List PktLine × PktLines)
  | 0, p => some ([], p)
  | f + 1, p =>
    match p.next with
    | .stall p2 => some ([], p2)
    | .abort => none
    | .line l p2 => (PktLines.drainGo f p2).map fun (ls, pe) => (l :: ls, pe)

def PktLines.drain (p : PktLines) : Option (List PktLine × PktLines) :=
  PktLines.drainGo (p.remaining.length + 1) p

/-- The observable part of a drain: the emitted lines and the unread bytes. -/
def PktLines.drainR (p : PktLines) : Option (List PktLine × List Nat) :=
  p.drain.map fun x => (x.1, x.2.remaining)

/-- One decoding step expressed purely on the unread bytes: none is the
malformed-length panic, some none the not-enough-bytes stall, and
some (some (l, r)) a decoded line with the bytes left after it.  This is the
specification device used to relate a cursor state to its remaining bytes. -/
def stepR (rem : List Nat) : Option (Option (PktLine × List Nat)) :=
  if rem.length < 4 then some none
  else
    match lineSize (rem.take 4) with
    | none => none
    | some n =>
      if n = 0 then some (some (PktLine.flush, rem.drop 4))
      else if (rem.drop 4).length < (n + (2 ^ 64 - 4)) % 2 ^ 64 then some none
      else some (some (PktLine.new ((rem.drop 4).take ((n + (2 ^ 64 - 4)) % 2 ^ 64)),
        rem.drop (4 + (n + (2 ^ 64 - 4)) % 2 ^ 64)))

/-- Draining expressed purely on the unread bytes. -/
def drainRGo : Nat → List Nat → Option (List PktLine × List Nat)
  | 0, rem => some ([], rem)
  | f + 1, rem =>
    match stepR rem with
    | none => none
    | some none => some ([], rem)
    | some (some (l, r)) => (drainRGo f r).map fun x => (l :: x.1, x.2)

def drainRFull (rem : List Nat) : Option (List PktLine × List Nat) :=
  drainRGo (rem.length + 1) rem

/-- Feed chunks one at a time through append, draining emitted lines between
appends, starting from an empty decoder. -/
def feedChunksGo : PktLines → List (List Nat) → Option (List PktLine)
  | _, [] => some []
  | st, c :: cs => do
    let (ls, st2) ← (st.append c).drain
    let more ← feedChunksGo st2 cs
    some (ls ++ more)

def feedChunks (chunks : List (List Nat)) : Option (List PktLine) :=
  feedChunksGo (PktLines.new []) chunks

/-- Decode a whole buffer in one go. -/
def decodeWhole (s : List Nat) : Option (List PktLine) :=
  (PktLines.new s).drain.map (·.1)

/-! ## Tree listing (ls-tree) -/

/-- format!("{:06}", n): decimal, zero-padded on the left to width 6. -/
def pad6 (n : Nat) : List Nat :=
  List.replicate (6 - (decBytes n).length) 48 ++ decBytes n

/-- One lowercase hex digit. -/
def hexDigitByte (n : Nat) : Nat :=
  if n < 10 then 48 + n else 87 + n

/-- hex::encode: two lowercase hex digits per byte. -/
def hexBytes (l : List Nat) : List Nat :=
  (l.map fun b => [hexDigitByte (b / 16), hexDigitByte (b % 16)]).flatten

/-- The Display form of a TreeNode:
"{:06} {} {}    {}" with the kind "tree" for directories and "blob"
otherwise (note: four spaces between hash and name). -/
def TreeNode.display (t : TreeNode) : List Nat :=
  pad6 t.mode.num ++ [32] ++
  (if t.mode = .directory then strB "tree" else strB "blob") ++ [32] ++
  hexBytes t.hash ++ [32, 32, 32, 32] ++ t.name

/-- Strict byte-wise lexicographic order on byte lists (the Ord of Rust
String restricted to the name comparison TreeNode uses). -/
def lexLt : List Nat → List Nat → Bool
  | [], [] => false
  | [], _ :: _ => true
  | _ :: _, [] => false
  | a :: xs, b :: ys => if a < b then true else if b < a then false else lexLt xs ys

/-- Stable insertion used to model Vec::sort (a stable sort by name). -/
def sortInsert (t : TreeNode) : List TreeNode → List TreeNode
  | [] => [t]
  | u :: us => if lexLt u.name t.name then u :: sortInsert t us else t :: u :: us

/-- The unique stable sort by name, the observable behavior of the
trees.sort() call in print_trees. -/
def sortNodes : List TreeNode → List TreeNode
  | [] => []
  | t :: ts => sortInsert t (sortNodes ts)

/-- GitObject::print_trees. -/
def GitObject.printTrees (o : GitObject) (nameOnly : Bool) : List (List Nat) :=
  match o with
  | .tree ts => (sortNodes ts).map fun t => if nameOnly then t.name else t.display
  | _ => []

/-! ## Round-trip side conditions -/

/-- A tree entry that serializes into a well-framed record: no NUL in the
name and a 20-byte hash. -/
def TreeNode.wf (t : TreeNode) : Bool :=
  noByte 0 t.name && t.hash.length == 20

/-- All bytes ASCII (< 128).  Commit::from_bytes passes each parsed slice
through String::from_utf8_lossy and the User regex runs on the resulting
str with the regex crate's Unicode-aware classes (\d is \p\x7bNd\x7d, the
dot is any char but newline).  On ASCII bytes from_utf8_lossy is the
identity, every char is one byte, \d collapses to [0-9] and the dot to any
byte but 10, so exactly there the byte-granular model below coincides with
the source; the well-formedness predicates restrict the round-trip claim
to that common domain. -/
def asciiBytes (l : List Nat) : Bool :=
  l.all (· < 128)

/-- A signature whose textual form is ASCII, is a single line, and is
parsed back to itself by the User regex. -/
def User.wf (u : User) : Bool :=
  asciiBytes u.display && noByte 10 u.display &&
    decide (userFromBytes u.display = some u)

/-- A commit whose serialized lines are exactly the parsed lines: ASCII
text (so from_utf8_lossy changes nothing), no newlines inside the tree,
parent and message fields, and re-parsable signatures. -/
def Commit.wf (c : Commit) : Bool :=
  asciiBytes c.tree && c.parents.all asciiBytes && asciiBytes c.comment &&
    noByte 10 c.tree && c.parents.all (noByte 10) && noByte 10 c.comment &&
    c.author.wf && c.committer.wf

/-- Objects on which parse-after-serialize is claimed to be the identity. -/
def GitObject.roundTripSafe : GitObject → Bool
  | .blob _ => true
  | .tree ts => ts.all TreeNode.wf
  | .commit c => c.wf

/-! ## Lemmas about decimal rendering and byte positions -/

/-- Folding hasher updates over tree entries appends the concatenation of
their serializations. -/
theorem foldl_update_eq_append (ts : List TreeNode) (acc : List Nat) :
    ts.foldl (fun a t => a ++ t.serialize) acc =
      acc ++ (ts.map TreeNode.serialize).flatten := by
  induction ts generalizing acc with
  | nil => simp
  | cons t ts ih =>
    rw [List.foldl_cons, ih (acc ++ t.serialize)]
    simp [List.append_assoc]


theorem decBytesCore_fuel : ∀ f₁ f₂ n, n < f₁ → n < f₂ →
    decBytesCore f₁ n = decBytesCore f₂ n := by
  intro f₁
  induction f₁ with
  | zero => intro f₂ n h; omega
  | succ f ih =>
    intro f₂ n h₁ h₂
    cases f₂ with
    | zero => omega
    | succ g =>
      simp only [decBytesCore]
      by_cases hn : n < 10
      · simp [hn]
      · have hd : n / 10 < n := Nat.div_lt_self (by omega) (by omega)
        simp only [hn, if_false]
        rw [ih g (n / 10) (by omega) (by omega)]

theorem decBytesCore_digits : ∀ f n, n < f → ∀ b ∈ decBytesCore f n, 48 ≤ b ∧ b ≤ 57 := by
  intro f
  induction f with
  | zero => intro n h; omega
  | succ f ih =>
    intro n h b hb
    simp only [decBytesCore] at hb
    by_cases hn : n < 10
    · simp [hn] at hb
      subst hb
      exact ⟨by omega, by omega⟩
    · have hd : n / 10 < n := Nat.div_lt_self (by omega) (by omega)
      simp only [hn, if_false, List.mem_append, List.mem_singleton] at hb
      rcases hb with hb | hb
      · exact ih (n / 10) (by omega) b hb
      · have hm : n % 10 < 10 := Nat.mod_lt _ (by omega)
        subst hb
        exact ⟨by omega, by omega⟩

theorem decBytes_digits (n : Nat) : ∀ b ∈ decBytes n, 48 ≤ b ∧ b ≤ 57 :=
  decBytesCore_digits (n + 1) n (Nat.lt_succ_self n)

theorem decBytes_noByte (k : Nat) (n : Nat) (hk : k < 48) : noByte k (decBytes n) = true := by
  simp only [noByte, List.all_eq_true, decide_eq_true_eq]
  intro b hb
  have := decBytes_digits n b hb
  omega

theorem parseDecCore_append (l₁ l₂ : List Nat) : ∀ acc,
    parseDecCore (l₁ ++ l₂) acc = (parseDecCore l₁ acc).bind fun a => parseDecCore l₂ a := by
  induction l₁ with
  | nil => intro acc; rfl
  | cons b r ih =>
    intro acc
    simp only [List.cons_append, parseDecCore]
    by_cases hd : 48 ≤ b ∧ b ≤ 57
    · simp [hd, ih]
    · simp [hd]

theorem parseDecCore_decBytesCore : ∀ f n acc, n < f →
    parseDecCore (decBytesCore f n) acc =
      some (acc * 10 ^ (decBytesCore f n).length + n) := by
  intro f
  induction f with
  | zero => intro n acc h; omega
  | succ f ih =>
    intro n acc h
    by_cases hn : n < 10
    · simp only [decBytesCore, hn, if_true, parseDecCore]
      have hdig : 48 ≤ 48 + n ∧ 48 + n ≤ 57 := by omega
      simp [hdig]
    · have hd : n / 10 < n := Nat.div_lt_self (by omega) (by omega)
      simp only [decBytesCore, hn, if_false]
      rw [parseDecCore_append]
      rw [ih (n / 10) acc (by omega)]
      have hm : n % 10 < 10 := Nat.mod_lt _ (by omega)
      have hdig : 48 ≤ 48 + n % 10 ∧ 48 + n % 10 ≤ 57 := by omega
      simp only [Option.some_bind, parseDecCore, hdig, and_self, if_true,
        List.length_append, List.length_cons, List.length_nil, Nat.zero_add]
      congr 1
      have h48 : 48 + n % 10 - 48 = n % 10 := by omega
      rw [h48]
      calc (acc * 10 ^ (decBytesCore f (n / 10)).length + n / 10) * 10 + n % 10
          = acc * (10 ^ (decBytesCore f (n / 10)).length * 10) +
              (10 * (n / 10) + n % 10) := by ring
        _ = acc * 10 ^ ((decBytesCore f (n / 10)).length + 1) + n := by
            rw [Nat.div_add_mod, pow_succ]

theorem decBytesCore_ne_nil (f n : Nat) (h : n < f) : decBytesCore f n ≠ [] := by
  cases f with
  | zero => omega
  | succ f =>
    simp only [decBytesCore]
    by_cases hn : n < 10 <;> simp [hn]

theorem parseDec_decBytes (n : Nat) : parseDec (decBytes n) = some n := by
  have hne := decBytesCore_ne_nil (n + 1) n (Nat.lt_succ_self n)
  simp only [parseDec, decBytes, List.isEmpty_iff]
  rw [if_neg hne]
  rw [parseDecCore_decBytesCore (n + 1) n 0 (Nat.lt_succ_self n)]
  simp

theorem bytePosition_append (x : Nat) (a b : List Nat) (h : noByte x a = true) :
    bytePosition x (a ++ x :: b) = some a.length := by
  induction a with
  | nil => simp [bytePosition, List.findIdx?]
  | cons c a ih =>
    simp only [noByte, List.all_cons, Bool.and_eq_true, decide_eq_true_eq] at h
    obtain ⟨hc, ha⟩ := h
    simp only [List.cons_append, bytePosition, List.findIdx?_cons, decide_eq_true_eq]
    rw [if_neg hc]
    have := ih (by simpa [noByte] using ha)
    simp only [bytePosition] at this
    simp [this]

/-! ## Round-trip lemmas -/

theorem noByte_append (b : Nat) (x y : List Nat) :
    noByte b (x ++ y) = (noByte b x && noByte b y) := by
  simp [noByte, List.all_append]

theorem sum_treeNode_len (ts : List TreeNode) :
    (ts.map TreeNode.len).sum = ((ts.map TreeNode.serialize).flatten).length := by
  induction ts with
  | nil => rfl
  | cons t ts ih => simp [TreeNode.len, ih]

theorem strB_blob_space : strB "blob " = strB "blob" ++ [32] := by decide

theorem strB_tree_space : strB "tree " = strB "tree" ++ [32] := by decide

theorem strB_commit_space : strB "commit " = strB "commit" ++ [32] := by decide

theorem isPrefixOf_append_self (l r : List Nat) : l.isPrefixOf (l ++ r) = true := by
  induction l with
  | nil => simp [List.isPrefixOf]
  | cons a l ih => simp [List.isPrefixOf, ih]

theorem dropExact_append (a b : List Nat) : dropExact a.length (a ++ b) = some b := by
  simp [dropExact, List.drop_left]

theorem sliceExact_append (a b : List Nat) (n : Nat) (h : n ≤ b.length) :
    sliceExact (a ++ b) a.length (a.length + n) = some (b.take n) := by
  have hcond : a.length ≤ a.length + n ∧ a.length + n ≤ (a ++ b).length :=
    ⟨by omega, by simp [List.length_append]; omega⟩
  have h1 : a.length + n - a.length = n := by omega
  simp only [sliceExact, hcond, and_self, if_true, List.drop_left, h1]

theorem noByte_iff (b : Nat) (l : List Nat) : noByte b l = true ↔ ∀ x ∈ l, x ≠ b := by
  simp [noByte]

theorem treeNode_new_build (dec name hash : List Nat) (mode : Mode)
    (hdec0 : noByte 0 dec = true) (hdec32 : noByte 32 dec = true)
    (hname : noByte 0 name = true) (hhash : hash.length = 20)
    (hparse : parseDec dec = some mode.num) :
    TreeNode.new (dec ++ 32 :: (name ++ 0 :: hash)) = some ⟨mode, name, hash⟩ := by
  have hsp : spacePosition (dec ++ 32 :: (name ++ 0 :: hash)) = some dec.length :=
    bytePosition_append 32 dec _ hdec32
  have hznb : noByte 0 (dec ++ 32 :: name) = true := by
    rw [noByte_iff]
    intro x hx
    rcases List.mem_append.mp hx with hx | hx
    · exact (noByte_iff 0 dec).mp hdec0 x hx
    · rcases List.mem_cons.mp hx with hx | hx
      · omega
      · exact (noByte_iff 0 name).mp hname x hx
  have hz : zeroPosition (dec ++ 32 :: (name ++ 0 :: hash)) =
      some (dec.length + (name.length + 1)) := by
    have hshape : dec ++ 32 :: (name ++ 0 :: hash) = (dec ++ 32 :: name) ++ 0 :: hash := by
      simp
    rw [hshape]
    have := bytePosition_append 0 (dec ++ 32 :: name) hash hznb
    simp only [zeroPosition]
    simpa using this
  have htake : (dec ++ 32 :: (name ++ 0 :: hash)).take dec.length = dec :=
    List.take_left dec _
  have hslice : sliceExact (dec ++ 32 :: (name ++ 0 :: hash)) (dec.length + 1)
      (dec.length + (name.length + 1)) = some name := by
    have hshape : dec ++ 32 :: (name ++ 0 :: hash) = (dec ++ [32]) ++ (name ++ 0 :: hash) := by
      simp
    have hs := sliceExact_append (dec ++ [32]) (name ++ 0 :: hash) name.length (by simp)
    simp only [List.length_append, List.length_cons, List.length_nil] at hs
    rw [hshape]
    have ha : dec.length + (name.length + 1) = dec.length + 1 + name.length := by omega
    have hb : dec.length + 1 = dec.length + 1 + 0 := by omega
    rw [ha]
    rw [hs]
    simp [List.take_left]
  have hdrop : (dec ++ 32 :: (name ++ 0 :: hash)).drop (dec.length + (name.length + 1) + 1) =
      hash := by
    have hshape : dec ++ 32 :: (name ++ 0 :: hash) = ((dec ++ 32 :: name) ++ [0]) ++ hash := by
      simp
    have hlen : ((dec ++ 32 :: name) ++ [0]).length = dec.length + (name.length + 1) + 1 := by
      simp; omega
    rw [hshape, ← hlen, List.drop_left]
  cases mode <;>
    simp only [TreeNode.new, hsp, hz, Option.bind_eq_bind, Option.some_bind, htake, hparse,
      hslice, hdrop, hhash, Mode.num] <;>
    simp

theorem treeNode_new_serialize (t : TreeNode) (h : t.wf = true) :
    TreeNode.new t.serialize = some t := by
  obtain ⟨mode, name, hash⟩ := t
  have hw : noByte 0 name = true ∧ hash.length = 20 := by
    simpa [TreeNode.wf] using h
  have hser : TreeNode.serialize ⟨mode, name, hash⟩ =
      decBytes mode.num ++ 32 :: (name ++ 0 :: hash) := by
    simp [TreeNode.serialize]
  rw [hser]
  exact treeNode_new_build (decBytes mode.num) name hash mode
    (decBytes_noByte 0 _ (by omega)) (decBytes_noByte 32 _ (by omega))
    hw.1 hw.2 (parseDec_decBytes mode.num)

theorem treeRecordsGo_nil (f : Nat) : treeRecordsGo f [] = some [] := by
  cases f <;> simp [treeRecordsGo, zeroPosition, bytePosition, List.findIdx?]

theorem treeRecordsGo_fuel : ∀ f₁ : Nat, ∀ f₂ : Nat, ∀ l : List Nat,
    l.length < f₁ → l.length < f₂ → treeRecordsGo f₁ l = treeRecordsGo f₂ l := by
  intro f₁
  induction f₁ with
  | zero => intro f₂ l h; omega
  | succ f ih =>
    intro f₂ l h₁ h₂
    cases f₂ with
    | zero => omega
    | succ g =>
      simp only [treeRecordsGo]
      cases hz : zeroPosition l with
      | none => rfl
      | some zp =>
        by_cases hlt : l.length < zp + 21
        · simp [hlt]
        · have hlen : (l.drop (zp + 21)).length < f ∧ (l.drop (zp + 21)).length < g := by
            have := List.length_drop (zp + 21) l
            exact ⟨by omega, by omega⟩
          have := ih g (l.drop (zp + 21)) hlen.1 hlen.2
          simp only [hlt, if_false, this]

theorem treeNode_wf_parts (t : TreeNode) (hw : t.wf = true) :
    noByte 0 t.name = true ∧ t.hash.length = 20 := by
  obtain ⟨mode, name, hash⟩ := t
  simpa [TreeNode.wf] using hw

theorem treeNode_serialize_shape (t : TreeNode) (rest : List Nat) :
    t.serialize ++ rest =
      (decBytes t.mode.num ++ 32 :: t.name) ++ 0 :: (t.hash ++ rest) := by
  simp [TreeNode.serialize]

theorem treeNode_serialize_length (t : TreeNode) (hw : t.wf = true) :
    t.serialize.length = (decBytes t.mode.num ++ 32 :: t.name).length + 21 := by
  have hh := (treeNode_wf_parts t hw).2
  simp [TreeNode.serialize, hh]
  omega

theorem treeNode_prefix_noZero (t : TreeNode) (hw : t.wf = true) :
    noByte 0 (decBytes t.mode.num ++ 32 :: t.name) = true := by
  have hn := (treeNode_wf_parts t hw).1
  rw [noByte_iff]
  intro x hx
  rcases List.mem_append.mp hx with hx | hx
  · exact (noByte_iff 0 _).mp (decBytes_noByte 0 _ (by omega)) x hx
  · rcases List.mem_cons.mp hx with hx | hx
    · omega
    · exact (noByte_iff 0 _).mp hn x hx

theorem treeNode_serialize_zero (t : TreeNode) (rest : List Nat) (hw : t.wf = true) :
    zeroPosition (t.serialize ++ rest) = some (t.serialize.length - 21) := by
  rw [treeNode_serialize_shape]
  have := bytePosition_append 0 (decBytes t.mode.num ++ 32 :: t.name) (t.hash ++ rest)
    (treeNode_prefix_noZero t hw)
  rw [treeNode_serialize_length t hw]
  simpa [zeroPosition] using this

theorem treeRecordsGo_roundtrip : ∀ ts : List TreeNode, ts.all TreeNode.wf = true →
    ∀ f : Nat, ((ts.map TreeNode.serialize).flatten).length < f →
    treeRecordsGo f ((ts.map TreeNode.serialize).flatten) = some ts := by
  intro ts
  induction ts with
  | nil => intro _ f _; simpa using treeRecordsGo_nil f
  | cons t ts ih =>
    intro hall f hf
    have hwt : t.wf = true ∧ ts.all TreeNode.wf = true := by
      simpa using hall
    have hlen21 : t.serialize.length = (decBytes t.mode.num ++ 32 :: t.name).length + 21 :=
      treeNode_serialize_length t hwt.1
    cases f with
    | zero => omega
    | succ f =>
      simp only [List.map_cons, List.flatten_cons] at hf ⊢
      simp only [treeRecordsGo, treeNode_serialize_zero t _ hwt.1]
      have harith : t.serialize.length - 21 + 21 = t.serialize.length := by omega
      simp only [harith]
      have hnotlt : ¬ (t.serialize ++ (ts.map TreeNode.serialize).flatten).length <
          t.serialize.length := by
        simp [List.length_append]
      simp only [hnotlt, if_false]
      have htk : (t.serialize ++ (ts.map TreeNode.serialize).flatten).take
          t.serialize.length = t.serialize := List.take_left _ _
      have hdp : (t.serialize ++ (ts.map TreeNode.serialize).flatten).drop
          t.serialize.length = (ts.map TreeNode.serialize).flatten := List.drop_left _ _
      have hrest : ((ts.map TreeNode.serialize).flatten).length < f := by
        rw [List.length_append] at hf
        omega
      simp only [htk, hdp, treeNode_new_serialize t hwt.1, ih hwt.2 f hrest,
        Option.bind_eq_bind, Option.some_bind]

theorem treeRecords_roundtrip (ts : List TreeNode) (h : ts.all TreeNode.wf = true) :
    treeRecords ((ts.map TreeNode.serialize).flatten) = some ts :=
  treeRecordsGo_roundtrip ts h _ (Nat.lt_succ_self _)

theorem splitOnByte_sep (b : Nat) (x y : List Nat) (hx : noByte b x = true) :
    splitOnByte b (x ++ b :: y) = x :: splitOnByte b y := by
  induction x with
  | nil => simp [splitOnByte]
  | cons c x ih =>
    have hx2 : (c ≠ b) ∧ noByte b x = true := by
      simpa [noByte] using hx
    simp only [List.cons_append, splitOnByte, List.append_eq, if_neg hx2.1, ih hx2.2]

theorem splitOnByte_noSep (b : Nat) (x : List Nat) (hx : noByte b x = true) :
    splitOnByte b x = [x] := by
  induction x with
  | nil => rfl
  | cons c x ih =>
    have hx2 : (c ≠ b) ∧ noByte b x = true := by
      simpa [noByte] using hx
    simp only [splitOnByte, if_neg hx2.1, ih hx2.2]

theorem splitOnByte_parents (ps : List (List Nat)) (tail : List Nat)
    (hps : ps.all (noByte 10) = true) :
    splitOnByte 10 ((ps.map fun p => strB "parent " ++ p ++ [10]).flatten ++ tail) =
      (ps.map fun p => strB "parent " ++ p) ++ splitOnByte 10 tail := by
  induction ps with
  | nil => simp
  | cons p ps ih =>
    have hps2 : noByte 10 p = true ∧ ps.all (noByte 10) = true := by
      simpa using hps
    have hsh : ((strB "parent " ++ p ++ [10]) :: ps.map fun q => strB "parent " ++ q ++ [10]).flatten
        ++ tail =
        (strB "parent " ++ p) ++ 10 ::
          ((ps.map fun q => strB "parent " ++ q ++ [10]).flatten ++ tail) := by
      simp
    simp only [List.map_cons, hsh]
    rw [splitOnByte_sep]
    · rw [ih hps2.2]
      simp
    · rw [noByte_append]
      have h1 : noByte 10 (strB "parent ") = true := by decide
      rw [h1, hps2.1]
      rfl

theorem commit_serialize_split (c : Commit) (hw : c.wf = true) :
    splitOnByte 10 c.serialize =
      (strB "tree " ++ c.tree) :: ((c.parents.map fun p => strB "parent " ++ p) ++
      [strB "author " ++ c.author.display, strB "committer " ++ c.committer.display,
        [], c.comment, []]) := by
  have hw2 : noByte 10 c.tree = true ∧ c.parents.all (noByte 10) = true ∧
      noByte 10 c.comment = true ∧ c.author.wf = true ∧ c.committer.wf = true := by
    simp only [Commit.wf, Bool.and_eq_true] at hw
    tauto
  have hA : noByte 10 c.author.display = true := by
    have := hw2.2.2.2.1
    simp only [User.wf, Bool.and_eq_true] at this
    exact this.1.2
  have hC : noByte 10 c.committer.display = true := by
    have := hw2.2.2.2.2
    simp only [User.wf, Bool.and_eq_true] at this
    exact this.1.2
  have hsh : c.serialize = (strB "tree " ++ c.tree) ++ 10 ::
      ((c.parents.map fun p => strB "parent " ++ p ++ [10]).flatten ++
        ((strB "author " ++ c.author.display) ++ 10 ::
          ((strB "committer " ++ c.committer.display) ++ 10 ::
            ([] ++ 10 :: (c.comment ++ 10 :: []))))) := by
    simp [Commit.serialize]
  rw [hsh]
  rw [splitOnByte_sep]
  · rw [splitOnByte_parents _ _ hw2.2.1]
    rw [splitOnByte_sep]
    · rw [splitOnByte_sep]
      · rw [splitOnByte_sep 10 [] _ (by rfl)]
        rw [splitOnByte_sep 10 c.comment [] hw2.2.2.1]
        rfl
      · rw [noByte_append]
        have h1 : noByte 10 (strB "committer ") = true := by decide
        rw [h1, hC]
        rfl
    · rw [noByte_append]
      have h1 : noByte 10 (strB "author ") = true := by decide
      rw [h1, hA]
      rfl
  · rw [noByte_append]
    have h1 : noByte 10 (strB "tree ") = true := by decide
    rw [h1, hw2.1]
    rfl

theorem commitLinesLoop_parents (tree : List Nat) (ps : List (List Nat)) :
    ∀ acc rest, commitLinesLoop tree acc ((ps.map fun p => strB "parent " ++ p) ++ rest) =
      commitLinesLoop tree (acc ++ ps) rest := by
  induction ps with
  | nil => intro acc rest; simp
  | cons p ps ih =>
    intro acc rest
    have hpre : (strB "parent").isPrefixOf (strB "parent " ++ p) = true := by
      have hsh : strB "parent " ++ p = strB "parent" ++ (32 :: p) := by
        have : strB "parent " = strB "parent" ++ [32] := by decide
        rw [this]; simp
      rw [hsh]
      exact isPrefixOf_append_self _ _
    have hdrop : dropExact 7 (strB "parent " ++ p) = some p := by
      have h7 : (strB "parent ").length = 7 := by decide
      rw [← h7]
      exact dropExact_append _ _
    simp only [List.map_cons, List.cons_append, commitLinesLoop, hpre, if_true, hdrop,
      Option.bind_eq_bind, Option.some_bind, List.append_eq]
    rw [ih (acc ++ [p]) rest]
    simp

theorem commitLinesLoop_final (tree comment : List Nat) (parents : List (List Nat))
    (author committer : User)
    (ha : userFromBytes author.display = some author)
    (hc : userFromBytes committer.display = some committer) :
    commitLinesLoop tree parents
      [strB "author " ++ author.display, strB "committer " ++ committer.display,
        [], comment, []] =
      some ⟨tree, parents, comment, author, committer⟩ := by
  have hnp : (strB "parent").isPrefixOf (strB "author " ++ author.display) = false := rfl
  have hd7 : dropExact 7 (strB "author " ++ author.display) = some author.display := by
    have h7 : (strB "author ").length = 7 := by decide
    rw [← h7]
    exact dropExact_append _ _
  have hd10 : dropExact 10 (strB "committer " ++ committer.display) =
      some committer.display := by
    have h10 : (strB "committer ").length = 10 := by decide
    rw [← h10]
    exact dropExact_append _ _
  simp only [commitLinesLoop, hnp, Bool.false_eq_true, if_false, hd7, hd10, ha, hc,
    Option.bind_eq_bind, Option.some_bind]

theorem commitFromBytes_roundtrip (c : Commit) (hw : c.wf = true) :
    commitFromBytes c.serialize = some c := by
  have hw2 : c.author.wf = true ∧ c.committer.wf = true := by
    simp only [Commit.wf, Bool.and_eq_true] at hw
    tauto
  have ha : userFromBytes c.author.display = some c.author := by
    have := hw2.1
    simp only [User.wf, Bool.and_eq_true] at this
    exact of_decide_eq_true this.2
  have hc : userFromBytes c.committer.display = some c.committer := by
    have := hw2.2
    simp only [User.wf, Bool.and_eq_true] at this
    exact of_decide_eq_true this.2
  have hd5 : dropExact 5 (strB "tree " ++ c.tree) = some c.tree := by
    have h5 : (strB "tree ").length = 5 := by decide
    rw [← h5]
    exact dropExact_append _ _
  simp only [commitFromBytes, commit_serialize_split c hw, hd5, Option.bind_eq_bind,
    Option.some_bind, List.append_eq]
  rw [commitLinesLoop_parents c.tree c.parents]
  simp only [List.nil_append]
  rw [commitLinesLoop_final c.tree c.comment c.parents c.author c.committer ha hc]

set_option maxHeartbeats 1000000 in
theorem gitObject_new_commit (c : Commit) (hw : c.wf = true) :
    GitObject.new (GitObject.header (.commit c) ++ GitObject.serialize (.commit c)) =
      some (.commit c) := by
  have hdata : GitObject.header (.commit c) ++ GitObject.serialize (.commit c) =
      strB "commit " ++ (decBytes c.serialize.length ++ 0 :: c.serialize) := by
    simp [GitObject.header, GitObject.size, GitObject.serialize, Commit.len]
  rw [hdata]
  have hnotblob : (strB "blob").isPrefixOf
      (strB "commit " ++ (decBytes c.serialize.length ++ 0 :: c.serialize)) = false := rfl
  have hnottree : (strB "tree").isPrefixOf
      (strB "commit " ++ (decBytes c.serialize.length ++ 0 :: c.serialize)) = false := rfl
  have hpre : (strB "commit").isPrefixOf
      (strB "commit " ++ (decBytes c.serialize.length ++ 0 :: c.serialize)) = true := by
    have hsh : strB "commit " ++ (decBytes c.serialize.length ++ 0 :: c.serialize) =
        strB "commit" ++ (32 :: (decBytes c.serialize.length ++ 0 :: c.serialize)) := by
      rw [strB_commit_space]; simp
    rw [hsh]
    exact isPrefixOf_append_self _ _
  have hz : zeroPosition (strB "commit " ++ (decBytes c.serialize.length ++ 0 :: c.serialize)) =
      some ((strB "commit " ++ decBytes c.serialize.length).length) := by
    have hsh : strB "commit " ++ (decBytes c.serialize.length ++ 0 :: c.serialize) =
        (strB "commit " ++ decBytes c.serialize.length) ++ 0 :: c.serialize := by simp
    rw [hsh]
    apply bytePosition_append
    rw [noByte_append]
    have h1 : noByte 0 (strB "commit ") = true := by decide
    rw [h1, decBytes_noByte 0 _ (by omega)]
    rfl
  have hdp : (strB "commit " ++ (decBytes c.serialize.length ++ 0 :: c.serialize)).drop
      ((strB "commit " ++ decBytes c.serialize.length).length + 1) = c.serialize := by
    have hsh : strB "commit " ++ (decBytes c.serialize.length ++ 0 :: c.serialize) =
        ((strB "commit " ++ decBytes c.serialize.length) ++ [0]) ++ c.serialize := by simp
    have hA : ((strB "commit " ++ decBytes c.serialize.length) ++ [0]).length =
        (strB "commit " ++ decBytes c.serialize.length).length + 1 := by simp; omega
    rw [hsh, ← hA, List.drop_left]
  unfold GitObject.new
  rw [if_neg (by rw [hnotblob]; simp), if_neg (by rw [hnottree]; simp), if_pos hpre]
  rw [hz]
  simp only [Option.bind_eq_bind, Option.some_bind]
  rw [hdp, commitFromBytes_roundtrip c hw]
  simp only [Option.some_bind]

/-- The sum of tree entry lengths is the length of the concatenated
serializations. -/

theorem strB_blob_space2 : strB "blob " = strB "blob" ++ [32] := by decide

theorem gitObject_new_blob_frame (b : List Nat) :
    GitObject.new (strB "blob " ++ (decBytes b.length ++ 0 :: b)) = some (.blob b) := by
  have hpre : (strB "blob").isPrefixOf (strB "blob " ++ (decBytes b.length ++ 0 :: b)) =
      true := by
    have hsh : strB "blob " ++ (decBytes b.length ++ 0 :: b) =
        strB "blob" ++ (32 :: (decBytes b.length ++ 0 :: b)) := by
      rw [strB_blob_space2]; simp
    rw [hsh]
    exact isPrefixOf_append_self _ _
  have hz : zeroPosition (strB "blob " ++ (decBytes b.length ++ 0 :: b)) =
      some ((strB "blob " ++ decBytes b.length).length) := by
    have hsh : strB "blob " ++ (decBytes b.length ++ 0 :: b) =
        (strB "blob " ++ decBytes b.length) ++ 0 :: b := by simp
    rw [hsh]
    apply bytePosition_append
    rw [noByte_append]
    have h1 : noByte 0 (strB "blob ") = true := by decide
    rw [h1, decBytes_noByte 0 _ (by omega)]
    rfl
  have hsl : sliceExact (strB "blob " ++ (decBytes b.length ++ 0 :: b)) 5
      ((strB "blob " ++ decBytes b.length).length) = some (decBytes b.length) := by
    have h5 : (strB "blob ").length = 5 := by decide
    have hlen : (strB "blob " ++ decBytes b.length).length = 5 + (decBytes b.length).length := by
      simp [h5]
    rw [hlen, ← h5]
    have := sliceExact_append (strB "blob ") (decBytes b.length ++ 0 :: b)
      (decBytes b.length).length (by simp)
    rw [h5] at this
    rw [h5]
    rw [this]
    simp [List.take_left]
  have hsl2 : sliceExact (strB "blob " ++ (decBytes b.length ++ 0 :: b))
      ((strB "blob " ++ decBytes b.length).length + 1)
      ((strB "blob " ++ decBytes b.length).length + 1 + b.length) = some b := by
    have hsh : strB "blob " ++ (decBytes b.length ++ 0 :: b) =
        ((strB "blob " ++ decBytes b.length) ++ [0]) ++ b := by simp
    have hA : ((strB "blob " ++ decBytes b.length) ++ [0]).length =
        (strB "blob " ++ decBytes b.length).length + 1 := by simp; omega
    rw [hsh, ← hA]
    have := sliceExact_append ((strB "blob " ++ decBytes b.length) ++ [0]) b b.length
      (Nat.le_refl _)
    rw [this]
    simp
  simp only [GitObject.new, hpre, if_true, hz, Option.bind_eq_bind, Option.some_bind, hsl,
    parseDec_decBytes, hsl2]

theorem gitObject_new_blob (b : List Nat) :
    GitObject.new (GitObject.header (.blob b) ++ GitObject.serialize (.blob b)) =
      some (.blob b) := by
  have hdata : GitObject.header (.blob b) ++ GitObject.serialize (.blob b) =
      strB "blob " ++ (decBytes b.length ++ 0 :: b) := by
    simp [GitObject.header, GitObject.size, GitObject.serialize]
  rw [hdata]
  exact gitObject_new_blob_frame b

theorem gitObject_new_tree (ts : List TreeNode) (h : ts.all TreeNode.wf = true) :
    GitObject.new (GitObject.header (.tree ts) ++ GitObject.serialize (.tree ts)) =
      some (.tree ts) := by
  set fl := (ts.map TreeNode.serialize).flatten with hfl
  have hsize : GitObject.size (.tree ts) = fl.length := by
    simp [GitObject.size, hfl, sum_treeNode_len]
  have hdata : GitObject.header (.tree ts) ++ GitObject.serialize (.tree ts) =
      strB "tree " ++ (decBytes fl.length ++ 0 :: fl) := by
    simp [GitObject.header, GitObject.serialize, hsize]
  rw [hdata]
  have hnotblob : (strB "blob").isPrefixOf (strB "tree " ++ (decBytes fl.length ++ 0 :: fl)) =
      false := rfl
  have hpre : (strB "tree").isPrefixOf (strB "tree " ++ (decBytes fl.length ++ 0 :: fl)) =
      true := by
    have hsh : strB "tree " ++ (decBytes fl.length ++ 0 :: fl) =
        strB "tree" ++ (32 :: (decBytes fl.length ++ 0 :: fl)) := by
      rw [strB_tree_space]; simp
    rw [hsh]
    exact isPrefixOf_append_self _ _
  have hz : zeroPosition (strB "tree " ++ (decBytes fl.length ++ 0 :: fl)) =
      some ((strB "tree " ++ decBytes fl.length).length) := by
    have hsh : strB "tree " ++ (decBytes fl.length ++ 0 :: fl) =
        (strB "tree " ++ decBytes fl.length) ++ 0 :: fl := by simp
    rw [hsh]
    apply bytePosition_append
    rw [noByte_append]
    have h1 : noByte 0 (strB "tree ") = true := by decide
    rw [h1, decBytes_noByte 0 _ (by omega)]
    rfl
  have hdp : (strB "tree " ++ (decBytes fl.length ++ 0 :: fl)).drop
      ((strB "tree " ++ decBytes fl.length).length + 1) = fl := by
    have hsh : strB "tree " ++ (decBytes fl.length ++ 0 :: fl) =
        ((strB "tree " ++ decBytes fl.length) ++ [0]) ++ fl := by simp
    have hA : ((strB "tree " ++ decBytes fl.length) ++ [0]).length =
        (strB "tree " ++ decBytes fl.length).length + 1 := by simp; omega
    rw [hsh, ← hA, List.drop_left]
  simp only [GitObject.new, hnotblob, hpre, if_true, Bool.false_eq_true, if_false, hz,
    Option.bind_eq_bind, Option.some_bind, hdp, treeRecords_roundtrip ts h]


/-- C3 (amended): for every blob; every tree whose entry names contain no NUL
and whose entry hashes are 20 bytes; and every commit whose text is ASCII
(where from_utf8_lossy is the identity and the Unicode-aware regex classes
coincide with their byte-level readings), whose tree, parent and message
fields contain no newline, and whose author and committer signatures render
to single-line text that the signature regex parses back unchanged, parsing
header(O) ++ serialize(O) with GitObject::new yields O. -/
theorem parse_after_serialize_roundtrip (o : GitObject) (h : o.roundTripSafe = true) :
    GitObject.new (o.header ++ o.serialize) = some o := by
  cases o with
  | blob b => exact gitObject_new_blob b
  | tree ts => exact gitObject_new_tree ts (by simpa [GitObject.roundTripSafe] using h)
  | commit c => exact gitObject_new_commit c (by simpa [GitObject.roundTripSafe] using h)

set_option maxRecDepth 100000 in
/-- C3 counterexample: a commit whose message contains a newline does not
round-trip: Commit::from_bytes keeps only the first message line, so parsing
the framed serialization yields a different object. -/
theorem parse_after_serialize_not_id :
    GitObject.new (GitObject.header (.commit ⟨strB "t", [], strB "a\nb",
        ⟨strB "A", strB "a@b.c", 0, strB "+0000"⟩,
        ⟨strB "A", strB "a@b.c", 0, strB "+0000"⟩⟩) ++
      GitObject.serialize (.commit ⟨strB "t", [], strB "a\nb",
        ⟨strB "A", strB "a@b.c", 0, strB "+0000"⟩,
        ⟨strB "A", strB "a@b.c", 0, strB "+0000"⟩⟩)) ≠
      some (.commit ⟨strB "t", [], strB "a\nb",
        ⟨strB "A", strB "a@b.c", 0, strB "+0000"⟩,
        ⟨strB "A", strB "a@b.c", 0, strB "+0000"⟩⟩) := by decide

set_option maxRecDepth 100000 in
/-- Closed instance of the amended C3 theorem at a concrete commit with one
parent, discharging the well-formedness hypothesis by evaluation. -/
theorem parse_after_serialize_roundtrip_witness :
    GitObject.roundTripSafe (.commit ⟨strB "t1", [strB "p1"], strB "hello",
        ⟨strB "A B", strB "a@b.c", 946684800, strB "+0000"⟩,
        ⟨strB "C D", strB "c@d.e", 946684801, strB "+0530"⟩⟩) = true ∧
    GitObject.new (GitObject.header (.commit ⟨strB "t1", [strB "p1"], strB "hello",
        ⟨strB "A B", strB "a@b.c", 946684800, strB "+0000"⟩,
        ⟨strB "C D", strB "c@d.e", 946684801, strB "+0530"⟩⟩) ++
      GitObject.serialize (.commit ⟨strB "t1", [strB "p1"], strB "hello",
        ⟨strB "A B", strB "a@b.c", 946684800, strB "+0000"⟩,
        ⟨strB "C D", strB "c@d.e", 946684801, strB "+0530"⟩⟩)) =
      some (.commit ⟨strB "t1", [strB "p1"], strB "hello",
        ⟨strB "A B", strB "a@b.c", 946684800, strB "+0000"⟩,
        ⟨strB "C D", strB "c@d.e", 946684801, strB "+0530"⟩⟩) :=
  ⟨by decide, parse_after_serialize_roundtrip _ (by decide)⟩

/-- C5: the base-size / target-size varint decoder never increments its
shift, so the third byte of [0x80, 0x80, 0x01] is added at bit position 7
instead of 14: the decoder returns 128 where the 7-bit little-endian
encoding denotes 1 <<< 14 = 16384. -/
theorem getLength_third_byte_shift_bug :
    getLength [128, 128, 1] = some (128, []) ∧ 128 ≠ 1 <<< 14 := by decide

/-- C6: a copy instruction whose leading byte 0x80 selects no size bytes
produces Copy{offset: 0, size: 0}; the decoder has no rule promoting a zero
size field to 0x10000. -/
theorem copy_zero_size_not_promoted :
    instructionNew 0x80 [] = some (.copy 0 0, []) ∧ (0 : Nat) ≠ 0x10000 := by decide

/-- C8 counterexample: serialize() returns the bare payload without any
length prefix, and flush().serialize() is empty rather than "0000". -/
theorem pktLine_serialize_no_prefix :
    (PktLine.new [97]).serialize = [97] ∧ PktLine.flush.serialize = [] ∧
    (PktLine.new [97]).serialize ≠ strB "0005" ++ [97] ∧
    PktLine.flush.serialize ≠ strB "0000" := by decide

/-- C8 (amended): PktLine::serialize returns exactly the payload bytes (and
the empty vector for flush); the four-digit length framing is produced only
by the Display implementation, from size() = |p| + 4 for payload lines and
size() = 0 for flush. -/
theorem pktLine_serialize_payload (p : List Nat) :
    (PktLine.new p).serialize = p ∧ (PktLine.new p).size = p.length + 4 ∧
    PktLine.flush.serialize = [] ∧ PktLine.flush.size = 0 := by
  simp [PktLine.new, PktLine.flush, PktLine.serialize, PktLine.size]

/-- C10: print_trees on a non-tree object (blob or commit) returns the empty
line list for both values of the name-only flag, without failing. -/
theorem printTrees_non_tree_empty (b : List Nat) (c : Commit) (nameOnly : Bool) :
    (GitObject.blob b).printTrees nameOnly = [] ∧
    (GitObject.commit c).printTrees nameOnly = [] :=
  ⟨rfl, rfl⟩

theorem lexLt_asymm : ∀ x y : List Nat, lexLt x y = true → lexLt y x = false := by
  intro x
  induction x with
  | nil =>
    intro y h
    cases y with
    | nil => simp [lexLt] at h
    | cons b ys => rfl
  | cons a xs ih =>
    intro y h
    cases y with
    | nil => simp [lexLt] at h
    | cons b ys =>
      simp only [lexLt] at h ⊢
      by_cases hab : a < b
      · have : ¬ b < a := by omega
        simp [hab, this]
      · by_cases hba : b < a
        · simp [hab, hba] at h
        · simp only [hab, hba, if_false] at h ⊢
          exact ih ys h

theorem lexLt_le_trans : ∀ x y z : List Nat,
    lexLt y x = false → lexLt z y = false → lexLt z x = false := by
  intro x
  induction x with
  | nil =>
    intro y z h1 h2
    cases z with
    | nil => rfl
    | cons c zs => rfl
  | cons a xs ih =>
    intro y z h1 h2
    cases y with
    | nil => simp [lexLt] at h1
    | cons b ys =>
      cases z with
      | nil => simp [lexLt] at h2
      | cons c zs =>
        simp only [lexLt] at h1 h2 ⊢
        by_cases hba : b < a
        · simp [hba] at h1
        · by_cases hcb : c < b
          · simp [hcb] at h2
          · by_cases hca : c < a
            · omega
            · by_cases hac : a < c
              · simp [hca, hac]
              · have hab : ¬ a < b := by omega
                have hbc : ¬ b < c := by omega
                simp only [hba, hab, if_false] at h1
                simp only [hcb, hbc, if_false] at h2
                simp only [hca, hac, if_false]
                exact ih ys zs h1 h2

theorem sortInsert_perm (t : TreeNode) : ∀ l : List TreeNode,
    (sortInsert t l).Perm (t :: l) := by
  intro l
  induction l with
  | nil => simp [sortInsert]
  | cons u us ih =>
    simp only [sortInsert]
    by_cases h : lexLt u.name t.name = true
    · simp only [h, if_true]
      exact ((ih.cons u).trans (List.Perm.swap t u us))
    · simp only [Bool.not_eq_true] at h
      simp [h]

theorem sortNodes_perm (ts : List TreeNode) : (sortNodes ts).Perm ts := by
  induction ts with
  | nil => simp [sortNodes]
  | cons t ts ih =>
    simp only [sortNodes]
    exact (sortInsert_perm t (sortNodes ts)).trans (ih.cons t)

theorem sortInsert_sorted (t : TreeNode) (l : List TreeNode)
    (h : List.Pairwise (fun a b => lexLt b.name a.name = false) l) :
    List.Pairwise (fun a b => lexLt b.name a.name = false) (sortInsert t l) := by
  induction l with
  | nil => simp [sortInsert]
  | cons u us ih =>
    rcases List.pairwise_cons.mp h with ⟨hu, hus⟩
    simp only [sortInsert]
    by_cases hlt : lexLt u.name t.name = true
    · simp only [hlt, if_true]
      rw [List.pairwise_cons]
      constructor
      · intro v hv
        have hmem := (sortInsert_perm t us).mem_iff.mp hv
        rcases List.mem_cons.mp hmem with hv2 | hv2
        · subst hv2
          exact lexLt_asymm _ _ hlt
        · exact hu v hv2
      · exact ih hus
    · simp only [Bool.not_eq_true] at hlt
      simp only [hlt, Bool.false_eq_true, if_false]
      rw [List.pairwise_cons]
      constructor
      · intro v hv
        rcases List.mem_cons.mp hv with hv2 | hv2
        · subst hv2
          exact hlt
        · exact lexLt_le_trans t.name u.name v.name hlt (hu v hv2)
      · exact h
  
theorem sortNodes_sorted (ts : List TreeNode) :
    List.Pairwise (fun a b => lexLt b.name a.name = false) (sortNodes ts) := by
  induction ts with
  | nil => simp [sortNodes]
  | cons t ts ih => exact sortInsert_sorted t (sortNodes ts) ih

/-- C9 (amended): print_trees on a tree yields one line per entry over the
stable name-sort of the entries; with name_only it is just the name, and
otherwise the mode zero-padded to six digits, a space, "tree" for directory
entries and "blob" otherwise, a space, the 40-digit lowercase hex hash, then
FOUR SPACES (not a tab), then the name. -/
theorem printTrees_format_and_order (ts : List TreeNode) (nameOnly : Bool) :
    GitObject.printTrees (.tree ts) nameOnly =
      (sortNodes ts).map (fun t =>
        if nameOnly then t.name
        else pad6 t.mode.num ++ [32] ++
          (if t.mode = .directory then strB "tree" else strB "blob") ++ [32] ++
          hexBytes t.hash ++ [32, 32, 32, 32] ++ t.name) ∧
    (sortNodes ts).Perm ts ∧
    List.Pairwise (fun a b => lexLt b.name a.name = false) (sortNodes ts) := by
  refine ⟨?_, sortNodes_perm ts, sortNodes_sorted ts⟩
  simp only [GitObject.printTrees]
  apply List.map_congr_left
  intro t _
  cases nameOnly <;> simp [TreeNode.display]

/-- C9 counterexample: the separator between hash and name is four spaces,
not a tab (byte 9), so the claimed line shape is not produced even for a
single file entry. -/
theorem printTrees_uses_spaces_not_tab :
    GitObject.printTrees (.tree [⟨.file, strB "a", List.replicate 20 0⟩]) false ≠
      [strB "100644 blob " ++ List.replicate 40 48 ++ 9 :: strB "a"] := by decide

/-- C7 (amended): a record declaring object type tag or ofs-delta makes the
pack iterator return None (modelled as done): iteration simply ends, no
error is raised, and decoding returns the objects gathered so far even
though the declared object count is not reached. -/
theorem packNext_tag_ofsdelta_done (inflate : InflateFn) (pf : PackFile)
    (len : Nat) (r : List Nat) (t : ObjectType)
    (h : pf.readObjectHeader = some (some ((len, t), r)))
    (ht : t = .tag ∨ t = .ofsDelta) :
    pf.next inflate = .done := by
  rcases ht with ht | ht <;> subst ht <;> simp [PackFile.next, h]

/-- Closed instance of the amended C7 theorem: a one-object pack whose
record header byte 0x40 declares type tag ends iteration at once. -/
theorem packNext_tag_ofsdelta_done_witness :
    PackFile.readObjectHeader ⟨1, [64]⟩ = some (some ((0, .tag), [])) ∧
    PackFile.next (fun _ _ => none) ⟨1, [64]⟩ = .done :=
  ⟨by decide, packNext_tag_ofsdelta_done (fun _ _ => none) ⟨1, [64]⟩ 0 [] .tag
    (by decide) (Or.inl rfl)⟩

/-- C7 counterexample: a pack that declares one object whose record is a tag
decodes successfully to the empty object list - the failure does not surface,
the list is silently truncated. -/
theorem getObjects_tag_returns_truncated :
    PackFile.new [80, 65, 67, 75, 0, 0, 0, 2, 0, 0, 0, 1, 64] = some ⟨1, [64]⟩ ∧
    PackFile.getObjects (fun _ _ => none) [80, 65, 67, 75, 0, 0, 0, 2, 0, 0, 0, 1, 64] =
      some [] := by decide

set_option maxRecDepth 1000000 in
/-- C1: expand_deltas returns successfully while silently discarding a
pending ref-delta.  With one materialized blob and two pending deltas - the
first resolvable against the blob, the second naming an absent base (the
zero hash) - the round resolves one delta, leaving one pending; the loop
treats a single leftover pending delta as termination and returns only the
two materialized objects, with no error. -/
theorem expandDeltas_drops_last_pending :
    expandDeltas
      [.gitObject (.blob (strB "hello world")),
        .refDelta [149, 208, 159, 43, 16, 21, 147, 71, 238, 206, 113, 57, 154, 126,
          46, 144, 126, 163, 223, 79] ⟨11, 11, [.insert (strB "HELLO WORLD")]⟩,
        .refDelta (List.replicate 20 0) ⟨11, 11, [.insert (strB "x")]⟩] =
      some [.blob (strB "hello world"), .blob (strB "HELLO WORLD")] := by decide

theorem pktLines_new_remaining (x : List Nat) : (PktLines.new x).remaining = x := by
  simp [PktLines.new, PktLines.remaining]

theorem parseHexCore_bound : ∀ l : List Nat, ∀ acc n : Nat,
    parseHexCore l acc = some n → n < (acc + 1) * 16 ^ l.length := by
  intro l
  induction l with
  | nil =>
    intro acc n h
    simp only [parseHexCore, Option.some.injEq] at h
    subst h
    simp
  | cons b r ih =>
    intro acc n h
    simp only [parseHexCore] at h
    cases hv : hexDigitVal b with
    | none => rw [hv] at h; exact absurd h (by simp)
    | some v =>
      rw [hv] at h
      have hb := ih (acc * 16 + v) n h
      have hv15 : v ≤ 15 := by
        by_cases h1 : 48 ≤ b ∧ b ≤ 57
        · simp [hexDigitVal, h1] at hv
          omega
        · by_cases h2 : 97 ≤ b ∧ b ≤ 102
          · simp [hexDigitVal, h1, h2] at hv
            omega
          · by_cases h3 : 65 ≤ b ∧ b ≤ 70
            · simp [hexDigitVal, h1, h2, h3] at hv
              omega
            · simp [hexDigitVal, h1, h2, h3] at hv
      calc n < (acc * 16 + v + 1) * 16 ^ r.length := hb
        _ ≤ ((acc + 1) * 16) * 16 ^ r.length := by nlinarith
        _ = (acc + 1) * 16 ^ (r.length + 1) := by ring
        _ = (acc + 1) * 16 ^ (b :: r).length := by simp

theorem lineSize_bound (l : List Nat) (n : Nat) (hl : l.length ≤ 4)
    (h : lineSize l = some n) : n < 2 ^ 16 := by
  simp only [lineSize] at h
  have hb : ∀ r : List Nat, r.length ≤ 4 → parseHexCore r 0 = some n → n < 2 ^ 16 := by
    intro r hr hp
    have := parseHexCore_bound r 0 n hp
    have h16 : (16 : Nat) ^ r.length ≤ 16 ^ 4 := Nat.pow_le_pow_right (by omega) hr
    simp only [Nat.one_mul] at this
    omega
  split at h
  · split at h
    · exact absurd h (by simp)
    · rename_i rest _
      exact hb rest (by simp at hl ⊢; omega) h
  · split at h
    · exact absurd h (by simp)
    · exact hb l hl h

theorem pktNext_stall_id (p q : PktLines) (h : p.next = .stall q) : q = p := by
  simp only [PktLines.next] at h
  split at h
  · injection h with h2; exact h2.symm
  · split at h
    · exact absurd h (by simp)
    · split at h
      · exact absurd h (by simp)
      · split at h
        · injection h with h; exact h.symm
        · exact absurd h (by simp)

theorem pktNext_short_stall (p : PktLines) (h : p.remaining.length < 4) :
    p.next = .stall p := by
  simp [PktLines.next, h]

theorem pktNext_eq_abort (p : PktLines) (h4 : ¬ p.remaining.length < 4)
    (hs : lineSize (p.remaining.take 4) = none) : p.next = .abort := by
  unfold PktLines.next
  rw [if_neg h4, hs]

theorem pktNext_eq_flush (p : PktLines) (h4 : ¬ p.remaining.length < 4)
    (hs : lineSize (p.remaining.take 4) = some 0) :
    p.next = .line PktLine.flush ⟨p.buf, p.pos + 4⟩ := by
  unfold PktLines.next
  rw [if_neg h4, hs]
  rfl

theorem pktNext_eq_stall2 (p : PktLines) (n : Nat) (h4 : ¬ p.remaining.length < 4)
    (hs : lineSize (p.remaining.take 4) = some n) (hn : n ≠ 0)
    (hv : (p.remaining.drop 4).length < (n + (2 ^ 64 - 4)) % 2 ^ 64) :
    p.next = .stall p := by
  unfold PktLines.next
  rw [if_neg h4, hs]
  show (if n = 0 then PktStep.line PktLine.flush ⟨p.buf, p.pos + 4⟩
    else if (p.remaining.drop 4).length < (n + (2 ^ 64 - 4)) % 2 ^ 64 then PktStep.stall p
    else PktStep.line (PktLine.new ((p.remaining.drop 4).take ((n + (2 ^ 64 - 4)) % 2 ^ 64)))
      ⟨p.buf, p.pos + 4 + (n + (2 ^ 64 - 4)) % 2 ^ 64⟩) = PktStep.stall p
  rw [if_neg hn, if_pos hv]

theorem pktNext_eq_line (p : PktLines) (n : Nat) (h4 : ¬ p.remaining.length < 4)
    (hs : lineSize (p.remaining.take 4) = some n) (hn : n ≠ 0)
    (hv : ¬ (p.remaining.drop 4).length < (n + (2 ^ 64 - 4)) % 2 ^ 64) :
    p.next = .line (PktLine.new ((p.remaining.drop 4).take ((n + (2 ^ 64 - 4)) % 2 ^ 64)))
      ⟨p.buf, p.pos + 4 + (n + (2 ^ 64 - 4)) % 2 ^ 64⟩ := by
  unfold PktLines.next
  rw [if_neg h4, hs]
  show (if n = 0 then PktStep.line PktLine.flush ⟨p.buf, p.pos + 4⟩
    else if (p.remaining.drop 4).length < (n + (2 ^ 64 - 4)) % 2 ^ 64 then PktStep.stall p
    else PktStep.line (PktLine.new ((p.remaining.drop 4).take ((n + (2 ^ 64 - 4)) % 2 ^ 64)))
      ⟨p.buf, p.pos + 4 + (n + (2 ^ 64 - 4)) % 2 ^ 64⟩) = _
  rw [if_neg hn, if_neg hv]

theorem stepR_short (rem : List Nat) (h : rem.length < 4) : stepR rem = some none := by
  unfold stepR
  rw [if_pos h]

theorem stepR_badsize (rem : List Nat) (h4 : ¬ rem.length < 4)
    (hs : lineSize (rem.take 4) = none) : stepR rem = none := by
  unfold stepR
  rw [if_neg h4, hs]

theorem stepR_flush (rem : List Nat) (h4 : ¬ rem.length < 4)
    (hs : lineSize (rem.take 4) = some 0) :
    stepR rem = some (some (PktLine.flush, rem.drop 4)) := by
  unfold stepR
  rw [if_neg h4, hs]
  rfl

theorem stepR_stall (rem : List Nat) (n : Nat) (h4 : ¬ rem.length < 4)
    (hs : lineSize (rem.take 4) = some n) (hn : n ≠ 0)
    (hv : (rem.drop 4).length < (n + (2 ^ 64 - 4)) % 2 ^ 64) :
    stepR rem = some none := by
  unfold stepR
  rw [if_neg h4, hs]
  show (if n = 0 then some (some (PktLine.flush, rem.drop 4))
    else if (rem.drop 4).length < (n + (2 ^ 64 - 4)) % 2 ^ 64 then some none
    else some (some (PktLine.new ((rem.drop 4).take ((n + (2 ^ 64 - 4)) % 2 ^ 64)),
      rem.drop (4 + (n + (2 ^ 64 - 4)) % 2 ^ 64)))) = some none
  rw [if_neg hn, if_pos hv]

theorem stepR_line_eq (rem : List Nat) (n : Nat) (h4 : ¬ rem.length < 4)
    (hs : lineSize (rem.take 4) = some n) (hn : n ≠ 0)
    (hv : ¬ (rem.drop 4).length < (n + (2 ^ 64 - 4)) % 2 ^ 64) :
    stepR rem = some (some (PktLine.new ((rem.drop 4).take ((n + (2 ^ 64 - 4)) % 2 ^ 64)),
      rem.drop (4 + (n + (2 ^ 64 - 4)) % 2 ^ 64))) := by
  unfold stepR
  rw [if_neg h4, hs]
  show (if n = 0 then some (some (PktLine.flush, rem.drop 4))
    else if (rem.drop 4).length < (n + (2 ^ 64 - 4)) % 2 ^ 64 then some none
    else some (some (PktLine.new ((rem.drop 4).take ((n + (2 ^ 64 - 4)) % 2 ^ 64)),
      rem.drop (4 + (n + (2 ^ 64 - 4)) % 2 ^ 64)))) = _
  rw [if_neg hn, if_neg hv]

theorem pktNext_long_stall (p : PktLines) (n : Nat) (h4 : 4 ≤ p.remaining.length)
    (hs : lineSize (p.remaining.take 4) = some n) (hlong : p.remaining.length < n) :
    p.next = .stall p := by
  have hb : n < 2 ^ 16 := lineSize_bound _ n (by simp) hs
  have hn0 : n ≠ 0 := by omega
  have hv : (n + (2 ^ 64 - 4)) % 2 ^ 64 = n - 4 := by
    have h4n : 4 ≤ n := by omega
    have : n + (2 ^ 64 - 4) = (n - 4) + 2 ^ 64 := by omega
    rw [this, Nat.add_mod_right, Nat.mod_eq_of_lt (by omega)]
  have hlt : (p.remaining.drop 4).length < (n + (2 ^ 64 - 4)) % 2 ^ 64 := by
    rw [hv, List.length_drop]
    omega
  exact pktNext_eq_stall2 p n (by omega) hs hn0 hlt

set_option maxRecDepth 8192 in
theorem pktNext_stepR (p : PktLines) :
    match stepR p.remaining with
    | none => p.next = .abort
    | some none => p.next = .stall p
    | some (some (l, r)) => ∃ q, p.next = .line l q ∧ q.remaining = r := by
  by_cases h4 : p.remaining.length < 4
  · rw [stepR_short _ h4]
    exact pktNext_short_stall p h4
  · cases hs : lineSize (p.remaining.take 4) with
    | none =>
      rw [stepR_badsize _ h4 hs]
      exact pktNext_eq_abort p h4 hs
    | some n =>
      by_cases hn : n = 0
      · subst hn
        rw [stepR_flush _ h4 hs]
        refine ⟨⟨p.buf, p.pos + 4⟩, pktNext_eq_flush p h4 hs, ?_⟩
        simp [PktLines.remaining, List.drop_drop, Nat.add_comm]
      · by_cases hv : (p.remaining.drop 4).length < (n + (2 ^ 64 - 4)) % 2 ^ 64
        · rw [stepR_stall _ n h4 hs hn hv]
          exact pktNext_eq_stall2 p n h4 hs hn hv
        · rw [stepR_line_eq _ n h4 hs hn hv]
          refine ⟨⟨p.buf, p.pos + 4 + (n + (2 ^ 64 - 4)) % 2 ^ 64⟩,
            pktNext_eq_line p n h4 hs hn hv, ?_⟩
          simp only [PktLines.remaining, List.drop_drop]
          rw [Nat.add_assoc]

set_option maxRecDepth 8192 in
theorem stepR_line_consume (rem r : List Nat) (l : PktLine)
    (h : stepR rem = some (some (l, r))) : r.length + 4 ≤ rem.length := by
  by_cases h4 : rem.length < 4
  · rw [stepR_short rem h4] at h
    simp at h
  · cases hs : lineSize (rem.take 4) with
    | none =>
      rw [stepR_badsize rem h4 hs] at h
      simp at h
    | some n =>
      by_cases hn : n = 0
      · subst hn
        rw [stepR_flush rem h4 hs] at h
        simp only [Option.some.injEq, Prod.mk.injEq] at h
        rw [← h.2, List.length_drop]
        omega
      · by_cases hv : (rem.drop 4).length < (n + (2 ^ 64 - 4)) % 2 ^ 64
        · rw [stepR_stall rem n h4 hs hn hv] at h
          simp at h
        · rw [stepR_line_eq rem n h4 hs hn hv] at h
          simp only [Option.some.injEq, Prod.mk.injEq] at h
          rw [← h.2, List.length_drop]
          omega

theorem drainGo_stepR : ∀ f : Nat, ∀ p : PktLines,
    (PktLines.drainGo f p).map (fun x => (x.1, x.2.remaining)) = drainRGo f p.remaining := by
  intro f
  induction f with
  | zero => intro p; rfl
  | succ f ih =>
    intro p
    have hstep := pktNext_stepR p
    cases hsr : stepR p.remaining with
    | none =>
      rw [hsr] at hstep
      simp [PktLines.drainGo, drainRGo, hstep, hsr]
    | some o =>
      cases o with
      | none =>
        rw [hsr] at hstep
        simp [PktLines.drainGo, drainRGo, hstep, hsr]
      | some lr =>
        rw [hsr] at hstep
        obtain ⟨q, hq, hqr⟩ := hstep
        simp only [PktLines.drainGo, drainRGo, hq, hsr]
        rw [← hqr, ← ih q]
        cases PktLines.drainGo f q <;> simp

theorem drainRGo_succ_none (f : Nat) (rem : List Nat) (h : stepR rem = none) :
    drainRGo (f + 1) rem = none := by
  unfold drainRGo
  rw [h]

theorem drainRGo_succ_stall (f : Nat) (rem : List Nat) (h : stepR rem = some none) :
    drainRGo (f + 1) rem = some ([], rem) := by
  unfold drainRGo
  rw [h]

theorem drainRGo_succ_line (f : Nat) (rem r : List Nat) (l : PktLine)
    (h : stepR rem = some (some (l, r))) :
    drainRGo (f + 1) rem = (drainRGo f r).map fun x => (l :: x.1, x.2) := by
  conv_lhs => unfold drainRGo
  rw [h]

theorem drainRGo_fuel : ∀ f₁ f₂ : Nat, ∀ rem : List Nat, rem.length < f₁ →
    rem.length < f₂ → drainRGo f₁ rem = drainRGo f₂ rem := by
  intro f₁
  induction f₁ with
  | zero => intro f₂ rem h; omega
  | succ f ih =>
    intro f₂ rem h₁ h₂
    cases f₂ with
    | zero => omega
    | succ g =>
      cases hsr : stepR rem with
      | none => rw [drainRGo_succ_none f rem hsr, drainRGo_succ_none g rem hsr]
      | some o =>
        cases o with
        | none => rw [drainRGo_succ_stall f rem hsr, drainRGo_succ_stall g rem hsr]
        | some lr =>
          obtain ⟨l, r⟩ := lr
          have hcons := stepR_line_consume rem r l hsr
          rw [drainRGo_succ_line f rem r l hsr, drainRGo_succ_line g rem r l hsr,
            ih g r (by omega) (by omega)]

theorem stepR_extend_abort (u v : List Nat) (h : stepR u = none) :
    stepR (u ++ v) = none := by
  by_cases h4 : u.length < 4
  · rw [stepR_short u h4] at h
    simp at h
  · have h4v : ¬ (u ++ v).length < 4 := by simp only [List.length_append]; omega
    have htk : (u ++ v).take 4 = u.take 4 := List.take_append_of_le_length (by omega)
    cases hs : lineSize (u.take 4) with
    | none =>
      refine stepR_badsize (u ++ v) h4v ?_
      rw [htk, hs]
    | some n =>
      exfalso
      by_cases hn : n = 0
      · subst hn
        rw [stepR_flush u h4 hs] at h
        simp at h
      · by_cases hv : (u.drop 4).length < (n + (2 ^ 64 - 4)) % 2 ^ 64
        · rw [stepR_stall u n h4 hs hn hv] at h
          simp at h
        · rw [stepR_line_eq u n h4 hs hn hv] at h
          simp at h

theorem stepR_extend_line (u v r : List Nat) (l : PktLine)
    (h : stepR u = some (some (l, r))) : stepR (u ++ v) = some (some (l, r ++ v)) := by
  by_cases h4 : u.length < 4
  · rw [stepR_short u h4] at h
    simp at h
  · have h4v : ¬ (u ++ v).length < 4 := by simp only [List.length_append]; omega
    have htk : (u ++ v).take 4 = u.take 4 := List.take_append_of_le_length (by omega)
    have hdp : (u ++ v).drop 4 = u.drop 4 ++ v := List.drop_append_of_le_length (by omega)
    cases hs : lineSize (u.take 4) with
    | none =>
      rw [stepR_badsize u h4 hs] at h
      simp at h
    | some n =>
      have hsv : lineSize ((u ++ v).take 4) = some n := by rw [htk, hs]
      by_cases hn : n = 0
      · subst hn
        rw [stepR_flush u h4 hs] at h
        simp only [Option.some.injEq, Prod.mk.injEq] at h
        rw [stepR_flush (u ++ v) h4v hsv, hdp, h.1, h.2]
      · by_cases hv : (u.drop 4).length < (n + (2 ^ 64 - 4)) % 2 ^ 64
        · rw [stepR_stall u n h4 hs hn hv] at h
          simp at h
        · rw [stepR_line_eq u n h4 hs hn hv] at h
          simp only [Option.some.injEq, Prod.mk.injEq] at h
          have hvb : (n + (2 ^ 64 - 4)) % 2 ^ 64 ≤ (u.drop 4).length := by omega
          have hvv : ¬ ((u ++ v).drop 4).length < (n + (2 ^ 64 - 4)) % 2 ^ 64 := by
            rw [hdp, List.length_append]
            omega
          have hdb : 4 + (n + (2 ^ 64 - 4)) % 2 ^ 64 ≤ u.length := by
            simp only [List.length_drop] at hvb
            omega
          rw [stepR_line_eq (u ++ v) n h4v hsv hn hvv, hdp,
            List.take_append_of_le_length hvb, List.drop_append_of_le_length hdb, h.1, h.2]

theorem drainRFull_stall (u : List Nat) (h : stepR u = some none) :
    drainRFull u = some ([], u) := by
  simp [drainRFull, drainRGo, h]

theorem drainRFull_abort (u : List Nat) (h : stepR u = none) : drainRFull u = none := by
  simp [drainRFull, drainRGo, h]

theorem drainRFull_line (u r : List Nat) (l : PktLine)
    (h : stepR u = some (some (l, r))) :
    drainRFull u = (drainRFull r).map fun x => (l :: x.1, x.2) := by
  have hc := stepR_line_consume u r l h
  show drainRGo (u.length + 1) u = _
  rw [drainRGo_succ_line u.length u r l h,
    drainRGo_fuel u.length (r.length + 1) r (by omega) (by omega)]
  rfl

theorem drainRGo_ends_stalled : ∀ f : Nat, ∀ rem : List Nat, ∀ ls : List PktLine,
    ∀ r : List Nat,
    rem.length < f → drainRGo f rem = some (ls, r) → stepR r = some none := by
  intro f
  induction f with
  | zero => intro rem ls r h; omega
  | succ f ih =>
    intro rem ls r hf h
    cases hsr : stepR rem with
    | none =>
      rw [drainRGo_succ_none f rem hsr] at h
      exact absurd h (by simp)
    | some o =>
      cases o with
      | none =>
        rw [drainRGo_succ_stall f rem hsr] at h
        simp only [Option.some.injEq, Prod.mk.injEq] at h
        rw [← h.2]
        exact hsr
      | some lr =>
        obtain ⟨l, r0⟩ := lr
        have hc := stepR_line_consume rem r0 l hsr
        rw [drainRGo_succ_line f rem r0 l hsr] at h
        cases hd : drainRGo f r0 with
        | none => rw [hd] at h; exact absurd h (by simp)
        | some x =>
          rw [hd] at h
          simp only [Option.map_some', Option.some.injEq, Prod.mk.injEq] at h
          rw [← h.2]
          exact ih r0 x.1 x.2 (by omega) (by rw [hd])

theorem drainRFull_ends_stalled (u : List Nat) (ls : List PktLine) (r : List Nat)
    (h : drainRFull u = some (ls, r)) : stepR r = some none :=
  drainRGo_ends_stalled (u.length + 1) u ls r (Nat.lt_succ_self _) h

theorem drainRFull_extend_aux : ∀ N : Nat, ∀ u v : List Nat, u.length ≤ N →
    drainRFull (u ++ v) =
      (drainRFull u).bind fun x => (drainRFull (x.2 ++ v)).map fun y => (x.1 ++ y.1, y.2) := by
  intro N
  induction N with
  | zero =>
    intro u v hu
    have hnil : u = [] := List.eq_nil_of_length_eq_zero (by omega)
    subst hnil
    rw [drainRFull_stall [] (by decide)]
    simp only [List.nil_append, Option.some_bind]
    cases drainRFull v <;> simp
  | succ N ih =>
    intro u v hu
    cases hsr : stepR u with
    | none =>
      rw [drainRFull_abort u hsr, drainRFull_abort (u ++ v) (stepR_extend_abort u v hsr)]
      rfl
    | some o =>
      cases o with
      | none =>
        rw [drainRFull_stall u hsr]
        simp only [Option.some_bind]
        cases drainRFull (u ++ v) <;> simp
      | some lr =>
        obtain ⟨l, r⟩ := lr
        have hc := stepR_line_consume u r l hsr
        rw [drainRFull_line u r l hsr,
          drainRFull_line (u ++ v) (r ++ v) l (stepR_extend_line u v r l hsr)]
        rw [ih r v (by omega)]
        cases hdr : drainRFull r with
        | none => simp
        | some x =>
          obtain ⟨xs, xr⟩ := x
          simp only [Option.map_some', Option.some_bind]
          cases drainRFull (xr ++ v) <;> simp

theorem drainRFull_extend (u v : List Nat) :
    drainRFull (u ++ v) =
      (drainRFull u).bind fun x => (drainRFull (x.2 ++ v)).map fun y => (x.1 ++ y.1, y.2) :=
  drainRFull_extend_aux u.length u v (Nat.le_refl _)

theorem drainR_new (x : List Nat) : (PktLines.new x).drainR = drainRFull x := by
  simp only [PktLines.drainR, PktLines.drain, drainRFull, pktLines_new_remaining]
  exact drainGo_stepR (x.length + 1) (PktLines.new x) |>.trans
    (by rw [pktLines_new_remaining])

theorem feedChunksGo_spec : ∀ cs : List (List Nat), ∀ st : PktLines,
    stepR st.remaining = some none →
    feedChunksGo st cs = (drainRFull (st.remaining ++ cs.flatten)).map (·.1) := by
  intro cs
  induction cs with
  | nil =>
    intro st hq
    simp only [feedChunksGo, List.flatten_nil, List.append_nil]
    rw [drainRFull_stall st.remaining hq]
    rfl
  | cons c cs ih =>
    intro st hq
    have happ : st.append c = PktLines.new (st.remaining ++ c) := rfl
    have hdrain : ((st.append c).drain).map (fun x => (x.1, x.2.remaining)) =
        drainRFull (st.remaining ++ c) := by
      rw [happ, ← drainR_new]
      rfl
    have hassoc : st.remaining ++ (c :: cs).flatten = (st.remaining ++ c) ++ cs.flatten := by
      simp
    rw [hassoc, drainRFull_extend (st.remaining ++ c) cs.flatten]
    simp only [feedChunksGo]
    cases hd : (st.append c).drain with
    | none =>
      rw [hd] at hdrain
      rw [← hdrain]
      rfl
    | some x =>
      obtain ⟨ls, st2⟩ := x
      rw [hd] at hdrain
      simp only [Option.map_some'] at hdrain
      rw [← hdrain]
      have hq2 : stepR st2.remaining = some none :=
        drainRFull_ends_stalled (st.remaining ++ c) ls st2.remaining (by rw [← hdrain])
      simp only [Option.bind_eq_bind, Option.some_bind]
      rw [ih st2 hq2]
      cases drainRFull (st2.remaining ++ cs.flatten) <;> simp

/-- C4: feeding a pkt-line stream in arbitrary chunks through append,
draining between appends, emits exactly the lines of a single whole-buffer
decode (including agreement on the malformed-length panic); and whenever
fewer than 4 bytes remain, or the declared length exceeds the remaining
bytes, next() returns None leaving the cursor at the start of the
incomplete frame. -/
theorem pktLines_chunked_eq_whole (chunks : List (List Nat)) :
    feedChunks chunks = decodeWhole chunks.flatten ∧
    (∀ p : PktLines, p.remaining.length < 4 → p.next = .stall p) ∧
    (∀ p : PktLines, ∀ n : Nat, 4 ≤ p.remaining.length →
      lineSize (p.remaining.take 4) = some n → p.remaining.length < n →
      p.next = .stall p) := by
  refine ⟨?_, fun p h => pktNext_short_stall p h,
    fun p n h4 hs hl => pktNext_long_stall p n h4 hs hl⟩
  rw [feedChunks, feedChunksGo_spec chunks (PktLines.new []) (by decide)]
  simp only [pktLines_new_remaining, List.nil_append]
  rw [← drainR_new]
  simp only [PktLines.drainR, decodeWhole]
  cases (PktLines.new chunks.flatten).drain <;> simp

/-- Closed instance of the C4 theorem: a concrete two-chunk split decodes
to the same lines as the whole stream, and concrete short and over-long
frames stall with the cursor unmoved. -/
theorem pktLines_chunked_eq_whole_witness :
    (feedChunks [strB "0008ab", strB "cd0000"] =
      decodeWhole ([strB "0008ab", strB "cd0000"] : List (List Nat)).flatten) ∧
    (PktLines.new [48]).next = .stall (PktLines.new [48]) ∧
    (PktLines.new (strB "0009ab")).next = .stall (PktLines.new (strB "0009ab")) ∧
    lineSize ((PktLines.new (strB "0009ab")).remaining.take 4) = some 9 :=
  ⟨(pktLines_chunked_eq_whole [strB "0008ab", strB "cd0000"]).1,
    (pktLines_chunked_eq_whole []).2.1 (PktLines.new [48]) (by decide),
    (pktLines_chunked_eq_whole []).2.2 (PktLines.new (strB "0009ab")) 9 (by decide)
      (by decide) (by decide),
    by decide⟩

set_option maxRecDepth 100000 in
-- Scenario S1 of the specification: the hash of the blob "hello world" is
-- 95d09f2b10159347eece71399a7e2e907ea3df4f.
example :
    GitObject.hash (.blob (strB "hello world")) =
      [149, 208, 159, 43, 16, 21, 147, 71, 238, 206, 113, 57, 154, 126, 46,
        144, 126, 163, 223, 79] := by decide

/-- C2: for every object O, GitObject::hash(O) is (deterministically) the
SHA-1 digest of the header "<kind> <size>\0" followed by the canonical
payload GitObject::serialize(O), where <size> is the decimal ASCII byte
length of that payload. -/
theorem hash_is_sha1_of_header_and_payload (o : GitObject) :
    o.hash = SHA1.digest (o.header ++ o.serialize) ∧
    o.header = o.kindBytes ++ [32] ++ decBytes o.serialize.length ++ [0] := by
  constructor
  · cases o with
    | blob b => simp [GitObject.hash, GitObject.serialize, Hasher.update, Hasher.finalize]
    | tree ts =>
      simp only [GitObject.hash, GitObject.serialize, Hasher.finalize, Hasher.update]
      rw [foldl_update_eq_append]
      simp
    | commit c => simp [GitObject.hash, GitObject.serialize, Hasher.update, Hasher.finalize]
  · cases o with
    | blob b =>
      simp [GitObject.header, GitObject.kindBytes, GitObject.size, GitObject.serialize,
        strB_blob_space, List.append_assoc]
    | tree ts =>
      simp [GitObject.header, GitObject.kindBytes, GitObject.size, GitObject.serialize,
        strB_tree_space, List.append_assoc, sum_treeNode_len]
    | commit c =>
      simp [GitObject.header, GitObject.kindBytes, GitObject.size, GitObject.serialize,
        Commit.len, strB_commit_space, List.append_assoc]

-- The Rust unit tests of the parsers, replayed against the embedding.
example : userFromBytes (strB "Kanji Tanaka <sumireminami@gmail.com> 946684800 +0000") =
    some ⟨strB "Kanji Tanaka", strB "sumireminami@gmail.com", 946684800, strB "+0000"⟩ := by
  decide

example : GitObject.new (strB "blob 11\x00hello world") =
    some (.blob (strB "hello world")) := by decide

example : treeRecords (strB "100644 file1\x0011111111111111111111" ++
      strB "40000 dir1\x0099999999999999999999") =
    some [⟨.file, strB "file1", List.replicate 20 49⟩,
      ⟨.directory, strB "dir1", List.replicate 20 57⟩] := by decide

/-- Closed instance of the C2 theorem at the blob "hello world": its hash is
the digest from scenario S1 of the specification. -/
theorem hash_is_sha1_of_header_and_payload_witness :
    GitObject.hash (.blob (strB "hello world")) =
      SHA1.digest (GitObject.header (.blob (strB "hello world")) ++
        GitObject.serialize (.blob (strB "hello world"))) :=
  (hash_is_sha1_of_header_and_payload (.blob (strB "hello world"))).1

-- The Rust unit tests of the delta decoder and the pkt-line codec, and the
-- specification scenarios S5/S6, replayed against the embedding.
example : getLength [0b10010001, 0b00101110] = some (5905, []) := by decide

example : getDeltaOffset 0b10000101 [1, 1] = some (65537, []) := by decide

example : getDeltaSize 0b10110000 [0b11010001, 1] = some (465, []) := by decide

example : (Delta.mk 8 6 [.copy 2 3, .insert (strB "XY"), .copy 7 1]).restore
    (strB "ABCDEFGH") = some (strB "CDEXYH") := by decide

example : decodeWhole (strB "0008abcd0006e\n0000") =
    some [PktLine.new (strB "abcd"), PktLine.new (strB "e\n"), PktLine.flush] := by decide

example : feedChunks [strB "0008ab", strB "cd00", strB "06e\n0000"] =
    some [PktLine.new (strB "abcd"), PktLine.new (strB "e\n"), PktLine.flush] := by decide
